import Mathlib

/-!
# Verification of the PyGit-JS core (src/pygit.js)

This file gives a shallow embedding, in Lean 4, of the object model and the
repository operations of the single-file Git clone `pygit.js`, and proves or
refutes the specification claims about it.

Conventions of the embedding:
* JavaScript strings are modelled as `List Char` (abbreviated `Str`);
  Node `Buffer`s are modelled as `List Nat`, each element a byte value < 256.
* `Buffer.from(s, 'utf8')` is modelled by `utf8Str`, `buf.toString()` by
  `utf8Decode` (faithful on valid UTF-8, which is all the code produces).
* SHA-1 (`crypto.createHash('sha1')`) is implemented in full (`sha1hex`).
* zlib deflate is an external compressor applied to the storage image; the
  serializer is therefore parameterized by the compression function.
* JavaScript plain objects used as string-keyed maps are modelled as
  insertion-ordered association lists (`objGet` / `objSet`), matching
  `Object.entries` enumeration order for string keys.
-/

set_option maxRecDepth 3000

/-- JavaScript strings. -/
abbrev Str := List Char

/-- Byte sequences (Node `Buffer`). -/
abbrev Bytes := List Nat

/-! ## UTF-8 encoding and decoding -/

/-- UTF-8 encoding of a single unicode scalar value, by codepoint range. -/
def utf8Char (c : Char) : Bytes :=
  let n := c.toNat
  if n < 128 then [n]
  else if n < 2048 then [192 + n / 64, 128 + n % 64]
  else if n < 65536 then [224 + n / 4096, 128 + (n / 64) % 64, 128 + n % 64]
  else [240 + n / 262144, 128 + (n / 4096) % 64, 128 + (n / 64) % 64, 128 + n % 64]

/-- UTF-8 encoding of a string (models `Buffer.from(s, 'utf8')`). -/
def utf8Str (s : Str) : Bytes := s.flatMap utf8Char

/-- Make a `Char` from a codepoint, with U+FFFD for invalid values. -/
def mkChar (n : Nat) : Char :=
  if n < 55296 ∨ (57343 < n ∧ n < 1114112) then Char.ofNat n else Char.ofNat 65533

/-- Decode one UTF-8 sequence: the decoded character and the remaining bytes
    (auxiliary, non-recursive). -/
def utf8Step (b : Nat) (rest : Bytes) : Char × Bytes :=
  if b < 128 then (mkChar b, rest)
  else if 192 ≤ b ∧ b < 224 then
    match rest with
    | b2 :: rest2 => (mkChar ((b - 192) * 64 + (b2 - 128)), rest2)
    | [] => (mkChar 65533, [])
  else if 224 ≤ b ∧ b < 240 then
    match rest with
    | b2 :: b3 :: rest3 =>
        (mkChar ((b - 224) * 4096 + ((b2 - 128) * 64 + (b3 - 128))), rest3)
    | _ => (mkChar 65533, [])
  else if 240 ≤ b then
    match rest with
    | b2 :: b3 :: b4 :: rest4 =>
        (mkChar ((b - 240) * 262144 + ((b2 - 128) * 4096
          + ((b3 - 128) * 64 + (b4 - 128)))), rest4)
    | _ => (mkChar 65533, [])
  else (mkChar 65533, rest)

/-- UTF-8 decoding, structural recursion on a fuel bound (auxiliary). -/
def utf8DecodeF : Nat → Bytes → Str
  | 0, _ => []
  | _ + 1, [] => []
  | f + 1, b :: rest =>
    let s := utf8Step b rest
    s.1 :: utf8DecodeF f s.2

/-- UTF-8 decoding (models `buf.toString('utf8')` on valid input; invalid
    bytes decode to U+FFFD). -/
def utf8Decode (b : Bytes) : Str := utf8DecodeF b.length b

/-! ## Decimal rendering and parsing (template literals and `parseInt`) -/

/-- Digits of a natural number, most significant first; structural recursion
    on a fuel bound so the kernel can evaluate it (auxiliary). -/
def decDigitsF : Nat → Nat → List Char
  | 0, _ => []
  | f + 1, n => if n = 0 then [] else decDigitsF f (n / 10) ++ [Char.ofNat (48 + n % 10)]

/-- Decimal string of a natural number (models the `${n}` template). -/
def toDec (n : Nat) : Str := if n = 0 then ['0'] else decDigitsF (n + 1) n

/-- Is the character an ASCII decimal digit? -/
def isDigitCh (c : Char) : Bool := 48 ≤ c.toNat && c.toNat ≤ 57

/-- Parse a run of leading decimal digits; `none` models `NaN`
    (models `parseInt(s, 10)` on the strings this program produces). -/
def parseDec (s : Str) : Option Nat :=
  if s.takeWhile isDigitCh = [] then none
  else some ((s.takeWhile isDigitCh).foldl (fun a c => a * 10 + (c.toNat - 48)) 0)

/-! ## Hex encoding and decoding -/

/-- Hex digit character (lowercase) for a value < 16. -/
def hexDigit (n : Nat) : Char :=
  if n < 10 then Char.ofNat (48 + n) else Char.ofNat (87 + n)

/-- Value of a hex digit character (case-insensitive); 0 for non-hex. -/
def hexVal (c : Char) : Nat :=
  if 48 ≤ c.toNat ∧ c.toNat ≤ 57 then c.toNat - 48
  else if 97 ≤ c.toNat ∧ c.toNat ≤ 102 then c.toNat - 87
  else if 65 ≤ c.toNat ∧ c.toNat ≤ 70 then c.toNat - 55
  else 0

/-- Is the character a hex digit? -/
def isHexCh (c : Char) : Bool :=
  (48 ≤ c.toNat && c.toNat ≤ 57) || (97 ≤ c.toNat && c.toNat ≤ 102)
    || (65 ≤ c.toNat && c.toNat ≤ 70)

/-- Decode a hex string to bytes, two digits per byte
    (models `Buffer.from(s, 'hex')` on valid hex input). -/
def hexDecode : Str → Bytes
  | c1 :: c2 :: rest => (hexVal c1 * 16 + hexVal c2) :: hexDecode rest
  | _ => []

/-- Encode bytes as a lowercase hex string (models `buf.toString('hex')`). -/
def hexEncode (b : Bytes) : Str :=
  b.flatMap (fun x => [hexDigit (x / 16), hexDigit (x % 16)])

/-! ## SHA-1 -/

/-- 32-bit left rotation. -/
def rotl32 (n x : Nat) : Nat := ((x <<< n) + (x >>> (32 - n))) % 4294967296

/-- SHA-1 round function by round index. -/
def sha1F (t b c d : Nat) : Nat :=
  if t < 20 then Nat.lor (Nat.land b c) (Nat.land (4294967295 - b) d)
  else if t < 40 then Nat.xor (Nat.xor b c) d
  else if t < 60 then Nat.lor (Nat.lor (Nat.land b c) (Nat.land b d)) (Nat.land c d)
  else Nat.xor (Nat.xor b c) d

/-- SHA-1 round constant by round index. -/
def sha1K (t : Nat) : Nat :=
  if t < 20 then 1518500249
  else if t < 40 then 1859775393
  else if t < 60 then 2400959708
  else 3395469782

/-- Split bytes into big-endian 32-bit words (4 bytes each). -/
def bytesToWords : Bytes → List Nat
  | b1 :: b2 :: b3 :: b4 :: rest =>
      (b1 * 16777216 + b2 * 65536 + b3 * 256 + b4) :: bytesToWords rest
  | _ => []

/-- Message schedule: extend 16 words to 80, keeping the list reversed
    (most recent word first) so each step reads a bounded prefix. -/
def sha1Extend : Nat → List Nat → List Nat
  | 0, wrev => wrev
  | k + 1, wrev =>
      sha1Extend k
        (rotl32 1 (Nat.xor (Nat.xor (wrev.getD 2 0) (wrev.getD 7 0))
          (Nat.xor (wrev.getD 13 0) (wrev.getD 15 0))) :: wrev)

/-- One compression round. -/
def sha1Round (st : Nat × Nat × Nat × Nat × Nat × Nat) (w : Nat) :
    Nat × Nat × Nat × Nat × Nat × Nat :=
  let t := st.1
  let a := st.2.1
  let b := st.2.2.1
  let c := st.2.2.2.1
  let d := st.2.2.2.2.1
  let e := st.2.2.2.2.2
  let tmp := (rotl32 5 a + sha1F t b c d + e + sha1K t + w) % 4294967296
  (t + 1, tmp, a, rotl32 30 b, c, d)

/-- Process one 64-byte block, updating the 5-word state. -/
def sha1Block (h : Nat × Nat × Nat × Nat × Nat) (block : Bytes) :
    Nat × Nat × Nat × Nat × Nat :=
  let w80 := (sha1Extend 64 (bytesToWords block).reverse).reverse
  let fin := w80.foldl sha1Round (0, h.1, h.2.1, h.2.2.1, h.2.2.2.1, h.2.2.2.2)
  ((h.1 + fin.2.1) % 4294967296,
   (h.2.1 + fin.2.2.1) % 4294967296,
   (h.2.2.1 + fin.2.2.2.1) % 4294967296,
   (h.2.2.2.1 + fin.2.2.2.2.1) % 4294967296,
   (h.2.2.2.2 + fin.2.2.2.2.2) % 4294967296)

/-- Split a byte list into 64-byte chunks; structural recursion on a fuel
    bound so the kernel can evaluate it (auxiliary). -/
def chunk64F : Nat → Bytes → List Bytes
  | 0, b => [b]
  | f + 1, b => if b.length ≤ 64 then [b] else b.take 64 :: chunk64F f (b.drop 64)

/-- Split a byte list into 64-byte chunks. -/
def chunk64 (b : Bytes) : List Bytes := chunk64F b.length b

/-- Big-endian bytes of a value, fixed width. -/
def beBytes : Nat → Nat → Bytes
  | 0, _ => []
  | k + 1, n => beBytes k (n / 256) ++ [n % 256]

/-- SHA-1 padding: 0x80, zeros, and the 64-bit big-endian bit length. -/
def sha1Pad (msg : Bytes) : Bytes :=
  msg ++ 128 :: List.replicate ((119 - msg.length % 64) % 64) 0
    ++ beBytes 8 (msg.length * 8)

/-- Full SHA-1, result as the five 32-bit state words. -/
def sha1Words (msg : Bytes) : Nat × Nat × Nat × Nat × Nat :=
  (chunk64 (sha1Pad msg)).foldl sha1Block
    (1732584193, 4023233417, 2562383102, 271733878, 3285377520)

/-- Full SHA-1, result as a 40-character lowercase hex string
    (models `crypto.createHash('sha1').update(b).digest('hex')`). -/
def sha1hex (msg : Bytes) : Str :=
  let h := sha1Words msg
  hexEncode (beBytes 4 h.1 ++ beBytes 4 h.2.1 ++ beBytes 4 h.2.2.1
    ++ beBytes 4 h.2.2.2.1 ++ beBytes 4 h.2.2.2.2)

/-! ## String splitting and joining (JS `split` / `join`) -/

/-- JavaScript `s.split(d)` for a one-character separator: never returns an
    empty list; splitting the empty string yields one empty field. -/
def splitCh (d : Char) : Str → List Str
  | [] => [[]]
  | c :: rest =>
    match splitCh d rest with
    | [] => [[c]]
    | h :: t => if c = d then [] :: h :: t else (c :: h) :: t

/-- JavaScript `parts.join(d)` for a one-character separator. -/
def joinCh (d : Char) : List Str → Str
  | [] => []
  | [s] => s
  | s :: rest => s ++ d :: joinCh d rest

theorem splitCh_ne_nil (d : Char) (s : Str) : splitCh d s ≠ [] := by
  cases s with
  | nil => simp [splitCh]
  | cons c rest =>
    simp only [splitCh]
    cases splitCh d rest with
    | nil => simp
    | cons h t =>
      by_cases hc : c = d <;> simp [hc]

theorem splitCh_append_cons (d : Char) (u v : Str) (hu : d ∉ u) :
    splitCh d (u ++ d :: v) = u :: splitCh d v := by
  induction u with
  | nil =>
    simp only [List.nil_append, splitCh]
    rcases h : splitCh d v with _ | ⟨h1, t1⟩
    · exact absurd h (splitCh_ne_nil d v)
    · simp
  | cons c u ih =>
    have hc : c ≠ d := by
      intro h
      exact hu (by simp [h])
    have hu' : d ∉ u := fun h => hu (List.mem_cons_of_mem _ h)
    simp only [List.cons_append, splitCh, List.append_eq]
    rw [ih hu']
    simp [hc]

theorem splitCh_of_not_mem (d : Char) (s : Str) (hs : d ∉ s) :
    splitCh d s = [s] := by
  induction s with
  | nil => simp [splitCh]
  | cons c rest ih =>
    have hc : c ≠ d := by
      intro h
      exact hs (by simp [h])
    have hs' : d ∉ rest := fun h => hs (List.mem_cons_of_mem _ h)
    simp [splitCh, ih hs', hc]

theorem joinCh_splitCh (d : Char) (s : Str) : joinCh d (splitCh d s) = s := by
  induction s with
  | nil => simp [splitCh, joinCh]
  | cons c rest ih =>
    simp only [splitCh]
    rcases h : splitCh d rest with _ | ⟨h1, t1⟩
    · exact absurd h (splitCh_ne_nil d rest)
    · rw [h] at ih
      by_cases hc : c = d
      · subst hc
        simpa [joinCh] using ih
      · simp only [if_neg hc]
        cases t1 with
        | nil => simpa [joinCh] using ih
        | cons x xs => simpa [joinCh] using ih

/-! ## Roundtrip lemmas for the encodings -/

theorem mkChar_toNat (c : Char) : mkChar c.toNat = c := by
  have h : c.toNat < 55296 ∨ (57343 < c.toNat ∧ c.toNat < 1114112) := by
    have h := c.valid
    simp [UInt32.isValidChar, Nat.isValidChar, Char.toNat] at h ⊢
    exact h
  rw [mkChar, if_pos h, Char.ofNat_toNat]

theorem utf8Step_le (b : Nat) (rest : Bytes) :
    (utf8Step b rest).2.length ≤ rest.length := by
  rcases rest with _ | ⟨b2, _ | ⟨b3, _ | ⟨b4, rest4⟩⟩⟩ <;>
    · simp only [utf8Step]
      split_ifs <;> (try simp) <;> omega

theorem utf8DecodeF_congr (f1 : Nat) :
    ∀ (f2 : Nat) (bytes : Bytes), bytes.length ≤ f1 → bytes.length ≤ f2 →
      utf8DecodeF f1 bytes = utf8DecodeF f2 bytes := by
  induction f1 with
  | zero =>
    intro f2 bytes h1 _
    have hb : bytes = [] := List.length_eq_zero.mp (Nat.le_zero.mp h1)
    subst hb
    cases f2 <;> rfl
  | succ f1 ih =>
    intro f2 bytes h1 h2
    cases bytes with
    | nil => cases f2 <;> rfl
    | cons b rest =>
      obtain ⟨g, rfl⟩ : ∃ g, f2 = g + 1 := ⟨f2 - 1, by simp at h2; omega⟩
      show (utf8Step b rest).1 :: utf8DecodeF f1 (utf8Step b rest).2
          = (utf8Step b rest).1 :: utf8DecodeF g (utf8Step b rest).2
      have hle := utf8Step_le b rest
      simp only [List.length_cons] at h1 h2
      rw [ih g (utf8Step b rest).2 (by omega) (by omega)]

theorem utf8Decode_char_append (c : Char) (r : Bytes) :
    utf8Decode (utf8Char c ++ r) = c :: utf8Decode r := by
  have hv : c.toNat < 55296 ∨ (57343 < c.toNat ∧ c.toNat < 1114112) := by
    have h := c.valid
    simp [UInt32.isValidChar, Nat.isValidChar, Char.toNat] at h ⊢
    exact h
  by_cases h1 : c.toNat < 128
  · have he : utf8Char c = [c.toNat] := by rw [utf8Char, if_pos h1]
    rw [utf8Decode, he]
    simp only [List.cons_append, List.nil_append, List.length_cons]
    show (utf8Step c.toNat r).1 :: utf8DecodeF r.length (utf8Step c.toNat r).2
        = c :: utf8Decode r
    have hs : utf8Step c.toNat r = (c, r) := by
      rw [utf8Step.eq_def, if_pos h1, mkChar_toNat]
    rw [hs]
    rfl
  · by_cases h2 : c.toNat < 2048
    · have he : utf8Char c = [192 + c.toNat / 64, 128 + c.toNat % 64] := by
        rw [utf8Char, if_neg h1, if_pos h2]
      rw [utf8Decode, he]
      simp only [List.cons_append, List.nil_append, List.length_cons]
      show (utf8Step (192 + c.toNat / 64) ((128 + c.toNat % 64) :: r)).1
          :: utf8DecodeF (r.length + 1)
            (utf8Step (192 + c.toNat / 64) ((128 + c.toNat % 64) :: r)).2
          = c :: utf8Decode r
      have e1 : ¬ (192 + c.toNat / 64 < 128) := by omega
      have e2 : 192 ≤ 192 + c.toNat / 64 ∧ 192 + c.toNat / 64 < 224 := by omega
      have e3 : (192 + c.toNat / 64 - 192) * 64 + (128 + c.toNat % 64 - 128)
          = c.toNat := by omega
      have hs : utf8Step (192 + c.toNat / 64) ((128 + c.toNat % 64) :: r) = (c, r) := by
        rw [utf8Step.eq_def, if_neg e1, if_pos e2]
        show (mkChar ((192 + c.toNat / 64 - 192) * 64 + (128 + c.toNat % 64 - 128)), r)
            = (c, r)
        rw [e3, mkChar_toNat]
      rw [hs]
      show c :: utf8DecodeF (r.length + 1) r = c :: utf8Decode r
      rw [utf8DecodeF_congr (r.length + 1) r.length r (by omega) (by omega)]
      rfl
    · by_cases h3 : c.toNat < 65536
      · have he : utf8Char c = [224 + c.toNat / 4096, 128 + c.toNat / 64 % 64,
            128 + c.toNat % 64] := by
          rw [utf8Char, if_neg h1, if_neg h2, if_pos h3]
        rw [utf8Decode, he]
        simp only [List.cons_append, List.nil_append, List.length_cons]
        show (utf8Step (224 + c.toNat / 4096)
              ((128 + c.toNat / 64 % 64) :: (128 + c.toNat % 64) :: r)).1
            :: utf8DecodeF (r.length + 1 + 1)
              (utf8Step (224 + c.toNat / 4096)
                ((128 + c.toNat / 64 % 64) :: (128 + c.toNat % 64) :: r)).2
            = c :: utf8Decode r
        have e1 : ¬ (224 + c.toNat / 4096 < 128) := by omega
        have e2 : ¬ (192 ≤ 224 + c.toNat / 4096 ∧ 224 + c.toNat / 4096 < 224) := by
          omega
        have e3 : 224 ≤ 224 + c.toNat / 4096 ∧ 224 + c.toNat / 4096 < 240 := by omega
        have e4 : (224 + c.toNat / 4096 - 224) * 4096
            + ((128 + c.toNat / 64 % 64 - 128) * 64 + (128 + c.toNat % 64 - 128))
            = c.toNat := by omega
        have hs : utf8Step (224 + c.toNat / 4096)
            ((128 + c.toNat / 64 % 64) :: (128 + c.toNat % 64) :: r) = (c, r) := by
          rw [utf8Step.eq_def, if_neg e1, if_neg e2, if_pos e3]
          show (mkChar ((224 + c.toNat / 4096 - 224) * 4096
              + ((128 + c.toNat / 64 % 64 - 128) * 64 + (128 + c.toNat % 64 - 128))), r)
              = (c, r)
          rw [e4, mkChar_toNat]
        rw [hs]
        show c :: utf8DecodeF (r.length + 1 + 1) r = c :: utf8Decode r
        rw [utf8DecodeF_congr (r.length + 1 + 1) r.length r (by omega) (by omega)]
        rfl
      · have he : utf8Char c = [240 + c.toNat / 262144, 128 + c.toNat / 4096 % 64,
            128 + c.toNat / 64 % 64, 128 + c.toNat % 64] := by
          rw [utf8Char, if_neg h1, if_neg h2, if_neg h3]
        rw [utf8Decode, he]
        simp only [List.cons_append, List.nil_append, List.length_cons]
        show (utf8Step (240 + c.toNat / 262144) ((128 + c.toNat / 4096 % 64)
              :: (128 + c.toNat / 64 % 64) :: (128 + c.toNat % 64) :: r)).1
            :: utf8DecodeF (r.length + 1 + 1 + 1)
              (utf8Step (240 + c.toNat / 262144) ((128 + c.toNat / 4096 % 64)
                :: (128 + c.toNat / 64 % 64) :: (128 + c.toNat % 64) :: r)).2
            = c :: utf8Decode r
        have e1 : ¬ (240 + c.toNat / 262144 < 128) := by omega
        have e2 : ¬ (192 ≤ 240 + c.toNat / 262144 ∧ 240 + c.toNat / 262144 < 224) := by
          omega
        have e3 : ¬ (224 ≤ 240 + c.toNat / 262144 ∧ 240 + c.toNat / 262144 < 240) := by
          omega
        have e4 : 240 ≤ 240 + c.toNat / 262144 := by omega
        have e5 : (240 + c.toNat / 262144 - 240) * 262144
            + ((128 + c.toNat / 4096 % 64 - 128) * 4096
            + ((128 + c.toNat / 64 % 64 - 128) * 64 + (128 + c.toNat % 64 - 128)))
            = c.toNat := by omega
        have hs : utf8Step (240 + c.toNat / 262144) ((128 + c.toNat / 4096 % 64)
            :: (128 + c.toNat / 64 % 64) :: (128 + c.toNat % 64) :: r) = (c, r) := by
          rw [utf8Step.eq_def, if_neg e1, if_neg e2, if_neg e3, if_pos e4]
          show (mkChar ((240 + c.toNat / 262144 - 240) * 262144
              + ((128 + c.toNat / 4096 % 64 - 128) * 4096
              + ((128 + c.toNat / 64 % 64 - 128) * 64 + (128 + c.toNat % 64 - 128)))), r)
              = (c, r)
          rw [e5, mkChar_toNat]
        rw [hs]
        show c :: utf8DecodeF (r.length + 1 + 1 + 1) r = c :: utf8Decode r
        rw [utf8DecodeF_congr (r.length + 1 + 1 + 1) r.length r (by omega) (by omega)]
        rfl

theorem utf8Decode_append (s : Str) (r : Bytes) :
    utf8Decode (utf8Str s ++ r) = s ++ utf8Decode r := by
  induction s with
  | nil =>
    show utf8Decode ([].flatMap utf8Char ++ r) = [] ++ utf8Decode r
    rw [List.flatMap_nil, List.nil_append, List.nil_append]
  | cons c cs ih =>
    have hs : utf8Str (c :: cs) = utf8Char c ++ utf8Str cs := by
      show (c :: cs).flatMap utf8Char = utf8Char c ++ cs.flatMap utf8Char
      rw [List.flatMap_cons]
    rw [hs, List.append_assoc, utf8Decode_char_append, ih, List.cons_append]

theorem utf8Decode_utf8Str (s : Str) : utf8Decode (utf8Str s) = s := by
  have h := utf8Decode_append s []
  rw [List.append_nil] at h
  have h2 : utf8Decode ([] : Bytes) = [] := rfl
  rw [h, h2, List.append_nil]

theorem utf8Str_injective (s t : Str) (h : utf8Str s = utf8Str t) : s = t := by
  have := congrArg utf8Decode h
  rwa [utf8Decode_utf8Str, utf8Decode_utf8Str] at this

/-! ## Decimal roundtrip -/

theorem decDigitsF_all_digits :
    ∀ (f n : Nat), ∀ c ∈ decDigitsF f n, isDigitCh c = true := by
  intro f
  induction f with
  | zero => intro n c hc; simp [decDigitsF] at hc
  | succ f ih =>
    intro n c hc
    by_cases h0 : n = 0
    · simp [decDigitsF, h0] at hc
    · rw [decDigitsF, if_neg h0] at hc
      rcases List.mem_append.mp hc with h | h
      · exact ih _ c h
      · have hv : (48 + n % 10).isValidChar := Or.inl (by omega)
        have : c = Char.ofNat (48 + n % 10) := by simpa using h
        subst this
        simp only [isDigitCh]
        have ht : (Char.ofNat (48 + n % 10)).toNat = 48 + n % 10 := by
          simp [Char.ofNat, hv, Char.ofNatAux, Char.toNat, UInt32.toNat, UInt32.ofNat']
        rw [ht]
        simp
        omega

theorem decDigitsF_foldl (f : Nat) :
    ∀ (n a : Nat), n ≤ f →
      (decDigitsF f n).foldl (fun x c => x * 10 + (c.toNat - 48)) a
        = a * 10 ^ (decDigitsF f n).length + n := by
  induction f with
  | zero =>
    intro n a hn
    have h0 : n = 0 := by omega
    subst h0
    simp [decDigitsF]
  | succ f ih =>
    intro n a hn
    by_cases h0 : n = 0
    · simp [decDigitsF, h0]
    · rw [decDigitsF, if_neg h0]
      have hd : n / 10 ≤ f := by omega
      rw [List.foldl_append, ih (n / 10) a hd]
      have hv : (48 + n % 10).isValidChar := Or.inl (by omega)
      have ht : (Char.ofNat (48 + n % 10)).toNat = 48 + n % 10 := by
        simp [Char.ofNat, hv, Char.ofNatAux, Char.toNat, UInt32.toNat, UInt32.ofNat']
      simp only [List.foldl_cons, List.foldl_nil, List.length_append,
        List.length_cons, List.length_nil, ht]
      have h48 : 48 + n % 10 - 48 = n % 10 := by omega
      rw [h48]
      have hdm : 10 * (n / 10) + n % 10 = n := Nat.div_add_mod n 10
      calc (a * 10 ^ (decDigitsF f (n / 10)).length + n / 10) * 10 + n % 10
          = a * 10 ^ ((decDigitsF f (n / 10)).length + (0 + 1))
            + (10 * (n / 10) + n % 10) := by ring
        _ = a * 10 ^ ((decDigitsF f (n / 10)).length + (0 + 1)) + n := by rw [hdm]

theorem toDec_all_digits (n : Nat) : ∀ c ∈ toDec n, isDigitCh c = true := by
  intro c hc
  rw [toDec] at hc
  by_cases h0 : n = 0
  · rw [if_pos h0] at hc
    simp at hc
    subst hc
    decide
  · rw [if_neg h0] at hc
    exact decDigitsF_all_digits (n + 1) n c hc

theorem decDigitsF_ne_nil (f n : Nat) (h0 : n ≠ 0) : decDigitsF (f + 1) n ≠ [] := by
  rw [decDigitsF, if_neg h0]
  simp

theorem toDec_ne_nil (n : Nat) : toDec n ≠ [] := by
  rw [toDec]
  by_cases h0 : n = 0
  · simp [h0]
  · rw [if_neg h0]
    exact decDigitsF_ne_nil n n h0

theorem parseDec_toDec (n : Nat) : parseDec (toDec n) = some n := by
  have hall : (toDec n).takeWhile isDigitCh = toDec n :=
    List.takeWhile_eq_self_iff.mpr (toDec_all_digits n)
  rw [parseDec, hall, if_neg (toDec_ne_nil n)]
  by_cases h0 : n = 0
  · subst h0
    rfl
  · rw [toDec, if_neg h0]
    rw [decDigitsF_foldl (n + 1) n 0 (Nat.le_succ n)]
    simp

/-! ## Hex roundtrip -/

/-- Is the character a lowercase hex digit (`0`–`9`, `a`–`f`)? -/
def isLowerHexCh (c : Char) : Bool :=
  (48 ≤ c.toNat && c.toNat ≤ 57) || (97 ≤ c.toNat && c.toNat ≤ 102)

theorem hexDigit_hexVal (c : Char) (h : isLowerHexCh c = true) :
    hexDigit (hexVal c) = c := by
  simp only [isLowerHexCh, Bool.or_eq_true, Bool.and_eq_true, decide_eq_true_eq] at h
  rcases h with ⟨h1, h2⟩ | ⟨h1, h2⟩
  · have e1 : 48 ≤ c.toNat ∧ c.toNat ≤ 57 := ⟨h1, h2⟩
    rw [hexVal, if_pos e1, hexDigit, if_pos (by omega)]
    have h3 : 48 + (c.toNat - 48) = c.toNat := by omega
    rw [h3, Char.ofNat_toNat]
  · have e1 : ¬ (48 ≤ c.toNat ∧ c.toNat ≤ 57) := by omega
    have e2 : 97 ≤ c.toNat ∧ c.toNat ≤ 102 := ⟨h1, h2⟩
    rw [hexVal, if_neg e1, if_pos e2, hexDigit, if_neg (by omega)]
    have h3 : 87 + (c.toNat - 87) = c.toNat := by omega
    rw [h3, Char.ofNat_toNat]

theorem hexVal_lt (c : Char) (h : isLowerHexCh c = true) : hexVal c < 16 := by
  simp only [isLowerHexCh, Bool.or_eq_true, Bool.and_eq_true, decide_eq_true_eq] at h
  rw [hexVal]
  rcases h with ⟨h1, h2⟩ | ⟨h1, h2⟩
  · rw [if_pos ⟨h1, h2⟩]
    omega
  · rw [if_neg (by omega), if_pos ⟨h1, h2⟩]
    omega

theorem hexEncode_hexDecode :
    ∀ s : Str, (∀ c ∈ s, isLowerHexCh c = true) → s.length % 2 = 0 →
      hexEncode (hexDecode s) = s
  | [], _, _ => rfl
  | [c], _, hl => by simp at hl
  | c1 :: c2 :: rest, hh, hl => by
    have h1 : isLowerHexCh c1 = true := hh c1 (by simp)
    have h2 : isLowerHexCh c2 = true := hh c2 (by simp)
    have hrest : ∀ c ∈ rest, isLowerHexCh c = true := fun c hc => hh c (by simp [hc])
    have hlr : rest.length % 2 = 0 := by
      simp only [List.length_cons] at hl
      omega
    have hv2 : hexVal c2 < 16 := hexVal_lt c2 h2
    have hdiv : (hexVal c1 * 16 + hexVal c2) / 16 = hexVal c1 := by omega
    have hmod : (hexVal c1 * 16 + hexVal c2) % 16 = hexVal c2 := by omega
    show hexEncode ((hexVal c1 * 16 + hexVal c2) :: hexDecode rest) = c1 :: c2 :: rest
    show [hexDigit ((hexVal c1 * 16 + hexVal c2) / 16),
        hexDigit ((hexVal c1 * 16 + hexVal c2) % 16)] ++ hexEncode (hexDecode rest)
      = c1 :: c2 :: rest
    rw [hdiv, hmod, hexDigit_hexVal c1 h1, hexDigit_hexVal c2 h2,
      hexEncode_hexDecode rest hrest hlr]
    rfl

theorem hexDecode_length (s : Str) : (hexDecode s).length = s.length / 2 := by
  have key : ∀ (k : Nat) (t : Str), t.length ≤ k →
      (hexDecode t).length = t.length / 2 := by
    intro k
    induction k with
    | zero =>
      intro t ht
      have hn : t = [] := List.length_eq_zero.mp (Nat.le_zero.mp ht)
      subst hn
      rfl
    | succ k ih =>
      intro t ht
      match t with
      | [] => rfl
      | [c] => simp [hexDecode]
      | c1 :: c2 :: rest =>
        show ((hexVal c1 * 16 + hexVal c2) :: hexDecode rest).length
            = (c1 :: c2 :: rest).length / 2
        simp only [List.length_cons] at ht ⊢
        rw [ih rest (by omega)]
        omega
  exact key s.length s (Nat.le_refl _)

/-! ## Association lists (JS objects used as string-keyed maps) -/

/-- `o[k]` read: first binding wins (keys are unique by construction). -/
def objGet {α : Type} (l : List (Str × α)) (k : Str) : Option α :=
  (l.find? (fun p => p.1 = k)).map (fun p => p.2)

/-- `o[k] = v` write: update in place if the key exists (JS objects keep the
    original insertion position), otherwise append. -/
def objSet {α : Type} (l : List (Str × α)) (k : Str) (v : α) : List (Str × α) :=
  if (l.find? (fun p => p.1 = k)).isSome
  then l.map (fun p => if p.1 = k then (k, v) else p)
  else l ++ [(k, v)]

/-- `delete o[k]` / `fs.unlinkSync`: drop the binding if present. -/
def objRemove {α : Type} (l : List (Str × α)) (k : Str) : List (Str × α) :=
  l.filter (fun p => p.1 ≠ k)

/-! ## Byte-lexicographic order (Node `Buffer.compare`) -/

/-- `Buffer.compare a b ≤ 0`: byte-lexicographic order, a strict prefix
    sorting before any extension. -/
def byteLe : Bytes → Bytes → Bool
  | [], _ => true
  | _ :: _, [] => false
  | a :: as, b :: bs => if a < b then true else if b < a then false else byteLe as bs

theorem byteLe_total (a b : Bytes) : byteLe a b || byteLe b a := by
  induction a generalizing b with
  | nil => simp [byteLe]
  | cons x xs ih =>
    cases b with
    | nil => simp [byteLe]
    | cons y ys =>
      simp only [byteLe]
      rcases Nat.lt_trichotomy x y with h | h | h
      · simp [h]
      · subst h
        simpa [Nat.lt_irrefl] using ih ys
      · simp [h, Nat.not_lt.mpr (Nat.le_of_lt h)]

theorem byteLe_trans (a b c : Bytes) (hab : byteLe a b) (hbc : byteLe b c) :
    byteLe a c := by
  induction a generalizing b c with
  | nil => simp [byteLe]
  | cons x xs ih =>
    cases b with
    | nil => simp [byteLe] at hab
    | cons y ys =>
      cases c with
      | nil => simp [byteLe] at hbc
      | cons z zs =>
        simp only [byteLe] at hab hbc ⊢
        rcases Nat.lt_trichotomy x y with h1 | h1 | h1
        · rcases Nat.lt_trichotomy y z with h2 | h2 | h2
          · simp [Nat.lt_trans h1 h2]
          · subst h2
            simp [h1]
          · simp [h2, Nat.not_lt.mpr (Nat.le_of_lt h2)] at hbc
        · subst h1
          rcases Nat.lt_trichotomy x z with h2 | h2 | h2
          · simp [h2]
          · subst h2
            simp only [Nat.lt_irrefl, if_false] at hab hbc ⊢
            exact ih ys zs hab hbc
          · simp [h2, Nat.not_lt.mpr (Nat.le_of_lt h2)] at hbc
        · simp [h1, Nat.not_lt.mpr (Nat.le_of_lt h1)] at hab

theorem byteLe_antisymm (a b : Bytes) (hab : byteLe a b) (hba : byteLe b a) :
    a = b := by
  induction a generalizing b with
  | nil =>
    cases b with
    | nil => rfl
    | cons y ys => simp [byteLe] at hba
  | cons x xs ih =>
    cases b with
    | nil => simp [byteLe] at hab
    | cons y ys =>
      simp only [byteLe] at hab hba
      rcases Nat.lt_trichotomy x y with h | h | h
      · simp [h, Nat.not_lt.mpr (Nat.le_of_lt h)] at hba
      · subst h
        simp only [Nat.lt_irrefl, if_false] at hab hba
        exact congrArg (x :: ·) (ih ys hab hba)
      · simp [h, Nat.not_lt.mpr (Nat.le_of_lt h)] at hab

/-! ## Git objects (`class GitObject` and its subclasses in src/pygit.js) -/

/-- The common object envelope: a kind string and a payload buffer. -/
structure GitObject where
  type : Str
  content : Bytes
deriving DecidableEq, Repr

/-- The storage image `"<type> <decimal-length>\0" ++ content` that both
    `hash()` and `serialize()` build (`Buffer.concat([header, content])`). -/
def storageImage (o : GitObject) : Bytes :=
  utf8Str (o.type ++ [' '] ++ toDec o.content.length ++ ['\x00']) ++ o.content

/-- `GitObject.hash()`: hex SHA-1 of the storage image. -/
def GitObject.hash (o : GitObject) : Str := sha1hex (storageImage o)

/-- `GitObject.serialize()`: zlib-deflate of the storage image.  The deflate
    compressor itself is an external library call, so the serializer is
    parameterized by it. -/
def GitObject.serializeWith (deflate : Bytes → Bytes) (o : GitObject) : Bytes :=
  deflate (storageImage o)

/-- `class Blob`: payload is the file bytes verbatim. -/
def Blob (content : Bytes) : GitObject := GitObject.mk ("blob".data) content

/-! ## Trees -/

/-- One tree entry `{mode, name, hashHex}`. -/
structure TreeEntry where
  mode : Str
  name : Str
  hashHex : Str
deriving DecidableEq, Repr

/-- The sort comparator in `Tree._serializeEntries`:
    `Buffer.from(a.name,'utf8').compare(Buffer.from(b.name,'utf8')) ≤ 0`. -/
def entryLe (a b : TreeEntry) : Prop :=
  byteLe (utf8Str a.name) (utf8Str b.name) = true

instance : DecidableRel entryLe :=
  fun a b => (inferInstance : Decidable (byteLe (utf8Str a.name) (utf8Str b.name) = true))

instance : IsTotal TreeEntry entryLe :=
  ⟨fun a b => by
    rcases Bool.or_eq_true _ _ ▸ byteLe_total (utf8Str a.name) (utf8Str b.name) with h | h
    · exact Or.inl h
    · exact Or.inr h⟩

instance : IsTrans TreeEntry entryLe :=
  ⟨fun a b c hab hbc => byteLe_trans _ _ _ hab hbc⟩

/-- `[...this.entries].sort(comparator)`: V8's `Array.sort` is a stable
    comparison sort; it is modelled by the (stable) insertion sort. -/
def sortEntries (l : List TreeEntry) : List TreeEntry := l.insertionSort entryLe

/-- The bytes one entry contributes to the payload:
    `Buffer.from(`<mode> <name>\0`)` followed by `Buffer.from(hashHex,'hex')`. -/
def encodeEntry (e : TreeEntry) : Bytes :=
  utf8Str (e.mode ++ [' '] ++ e.name ++ ['\x00']) ++ hexDecode e.hashHex

/-- `Tree._serializeEntries()`: sort a copy of the entries by name, then
    concatenate the per-entry encodings. -/
def serializeEntries (entries : List TreeEntry) : Bytes :=
  (sortEntries entries).flatMap encodeEntry

/-- A `Tree` object: the constructor (and `addEntry`) always recompute
    `this.content = this._serializeEntries()`, so a tree holding `entries`
    has exactly this envelope no matter the insertion order of `addEntry`. -/
def treeObject (entries : List TreeEntry) : GitObject :=
  GitObject.mk ("tree".data) (serializeEntries entries)

/-- `Tree.fromContent` parse loop, structural recursion on a fuel bound
    (auxiliary).  `name` is modelled as the string `"undefined"` when the
    header contains no space, matching how the JS `undefined` renders in the
    only downstream uses (template literals). -/
def parseTreeEntriesF : Nat → Bytes → List TreeEntry
  | 0, _ => []
  | f + 1, b =>
    match List.findIdx? (fun x => x == 0) b with
    | none => []
    | some n =>
      let modeName := utf8Decode (b.take n)
      let fields := (splitCh ' ' modeName).take 2
      TreeEntry.mk (fields.getD 0 []) (fields.getD 1 ("undefined".data))
          (hexEncode ((b.drop (n + 1)).take 20))
        :: parseTreeEntriesF f (b.drop (n + 21))

/-- `Tree.fromContent(content).entries`: scan the payload, splitting each
    header at the first `\0`, the mode and name at the first space
    (`split(' ', 2)`), and reading 20 raw id bytes. -/
def parseTreeEntries (b : Bytes) : List TreeEntry := parseTreeEntriesF b.length b

/-! ## Commits -/

/-- The fields the `Commit` constructor stores, plus the payload it builds. -/
structure CommitData where
  treeHash : Option Str
  parentHashes : List Str
  author : Str
  committer : Str
  message : Str
  timestamp : Nat
  content : Bytes
deriving DecidableEq, Repr

/-- How a possibly-`null` string renders in a template literal. -/
def jsShow (o : Option Str) : Str :=
  match o with
  | some s => s
  | none => "null".data

/-- The `Commit` constructor.  `timestamp = 0` models both JS `null` and
    `NaN` (all falsy), in which case the current time `now` is used
    (`timestamp || Math.floor(Date.now() / 1000)`). -/
def mkCommit (treeHash : Option Str) (parentHashes : List Str)
    (author committer message : Str) (timestamp now : Nat) : CommitData :=
  let ts := if timestamp ≠ 0 then timestamp else now
  let lines := (("tree ".data ++ jsShow treeHash)
      :: parentHashes.map (fun p => "parent ".data ++ p))
    ++ [("author ".data) ++ author ++ [' '] ++ toDec ts ++ (" +0000".data)]
    ++ [("committer ".data) ++ committer ++ [' '] ++ toDec ts ++ (" +0000".data)]
    ++ [[], message]
  CommitData.mk treeHash parentHashes author committer message ts
    (utf8Str (joinCh '\n' lines))

/-- The envelope the `Commit` subclass passes to `super('commit', content)`. -/
def commitObject (c : CommitData) : GitObject := GitObject.mk ("commit".data) c.content

/-- Accumulator of `Commit.fromContent`'s header loop. -/
structure CommitScan where
  tree : Option Str
  parents : List Str
  author : Option Str
  committer : Option Str
  ts : Option Nat
  rest : Option (List Str)
deriving DecidableEq, Repr

/-- The header loop of `Commit.fromContent`: prefixes checked in order, the
    loop stops at the first empty line (`rest` then holds the lines after
    it); the timestamp is the penultimate space-separated token of the
    author line (`parseInt` giving `NaN` is modelled by `none`). -/
def scanCommitLines : List Str → CommitScan → CommitScan
  | [], acc => acc
  | line :: more, acc =>
    if ("tree ".data).isPrefixOf line then
      scanCommitLines more { acc with tree := some (line.drop 5) }
    else if ("parent ".data).isPrefixOf line then
      scanCommitLines more { acc with parents := acc.parents ++ [line.drop 7] }
    else if ("author ".data).isPrefixOf line then
      let parts := splitCh ' ' (line.drop 7)
      scanCommitLines more
        { acc with
          author := some (joinCh ' ' (parts.take (parts.length - 2)))
          ts := if 2 ≤ parts.length
            then parseDec (parts.getD (parts.length - 2) []) else none }
    else if ("committer ".data).isPrefixOf line then
      let parts := splitCh ' ' (line.drop 10)
      scanCommitLines more
        { acc with committer := some (joinCh ' ' (parts.take (parts.length - 2))) }
    else if line = [] then
      { acc with rest := some more }
    else
      scanCommitLines more acc

/-- `Commit.fromContent`: split the payload into lines, scan the headers,
    join the message lines back, and re-run the constructor.  A missing
    author/committer line (JS `null`) is modelled by the string `"null"`,
    matching its rendering at every downstream use; an absent or `NaN`
    timestamp is modelled by `0` (falsy, like `NaN`). -/
def commitFromContent (b : Bytes) (now : Nat) : CommitData :=
  let lines := splitCh '\n' (utf8Decode b)
  let acc := scanCommitLines lines (CommitScan.mk none [] none none none none)
  let msgLines := match acc.rest with
    | some r => r
    | none => lines
  mkCommit acc.tree acc.parents (jsShow acc.author) (jsShow acc.committer)
    (joinCh '\n' msgLines) (acc.ts.getD 0) now

/-! ## Repository state

The persistent state a `Repository` instance manipulates through the
filesystem: the `HEAD` file, the ref files under `refs/heads`, the object
files under `objects` (keyed here by their full 40-hex id; the two-level
directory fan-out only changes where the bytes live), the JSON `index`
file (as its association list), and the working-directory files keyed by
repo-relative `/`-joined path. -/
structure RepoState where
  head : Option Str
  refs : List (Str × Str)
  objects : List (Str × GitObject)
  index : List (Str × Str)
  working : List (Str × Bytes)
deriving DecidableEq, Repr

/-- Whitespace for JS `String.trim`. -/
def isWsCh (c : Char) : Bool := c = ' ' || c = '\n' || c = '\t' || c = '\r'

/-- JS `s.trim()`. -/
def trimStr (s : Str) : Str :=
  ((s.dropWhile isWsCh).reverse.dropWhile isWsCh).reverse

/-- `Repository.storeObject`: write-once, keyed by the object's hash. -/
def Repository.storeObject (o : GitObject) (st : RepoState) : Str × RepoState :=
  let objHash := o.hash
  match objGet st.objects objHash with
  | some _ => (objHash, st)
  | none => (objHash, { st with objects := st.objects ++ [(objHash, o)] })

/-- `Repository.loadObject`: `none` models the thrown
    `Object <hash> not found` error. -/
def Repository.loadObject (objHash : Str) (st : RepoState) : Option GitObject :=
  objGet st.objects objHash

/-- `Repository.loadIndex` (the missing-file and parse-error fallbacks to
    `{}` concern states this model does not produce: the index file always
    holds the JSON of an object). -/
def Repository.loadIndex (st : RepoState) : List (Str × Str) := st.index

/-- `Repository.saveIndex` as a state update; the bytes written are
    `saveIndexText` below. -/
def Repository.saveIndex (idx : List (Str × Str)) (st : RepoState) : RepoState :=
  { st with index := idx }

/-- JSON string-escaping as in `JSON.stringify`. -/
def jsonEscapeCh (c : Char) : Str :=
  if c = '"' then ['\\', '"']
  else if c = '\\' then ['\\', '\\']
  else if c = '\n' then ['\\', 'n']
  else if c = '\t' then ['\\', 't']
  else if c = '\r' then ['\\', 'r']
  else if c.toNat = 8 then ['\\', 'b']
  else if c.toNat = 12 then ['\\', 'f']
  else if c.toNat < 32 then
    ('\\' :: 'u' :: '0' :: '0' :: [hexDigit (c.toNat / 16), hexDigit (c.toNat % 16)])
  else [c]

/-- A JSON string literal. -/
def jsonQuote (s : Str) : Str := '"' :: s.flatMap jsonEscapeCh ++ ['"']

/-- JS `parts.join(sep)` for a multi-character separator. -/
def joinStr (sep : Str) : List Str → Str
  | [] => []
  | [s] => s
  | s :: rest => s ++ sep ++ joinStr sep rest

/-- The exact text `JSON.stringify(idx, null, 2)` produces for a flat
    string-valued object, in key insertion order. -/
def saveIndexText (idx : List (Str × Str)) : Str :=
  match idx with
  | [] => "{}".data
  | _ =>
    ("\x7b\n".data)
      ++ joinStr (",\n".data)
        (idx.map (fun p =>
          ("  ".data) ++ jsonQuote p.1 ++ (": ".data) ++ jsonQuote p.2))
      ++ ("\n\x7d".data)

/-- `Repository.getCurrentBranch`: a missing HEAD file reads as `master`;
    a symbolic ref yields its branch suffix; anything else yields `HEAD`. -/
def Repository.getCurrentBranch (st : RepoState) : Str :=
  match st.head with
  | none => "master".data
  | some c =>
    let t := trimStr c
    if ("ref: refs/heads/".data).isPrefixOf t then t.drop 16 else "HEAD".data

/-- `Repository.getBranchCommit`: trimmed ref-file content, or `none`. -/
def Repository.getBranchCommit (branch : Str) (st : RepoState) : Option Str :=
  (objGet st.refs branch).map trimStr

/-- `Repository.setBranchCommit`: overwrite the ref file with `hash\n`. -/
def Repository.setBranchCommit (branch commitHash : Str) (st : RepoState) : RepoState :=
  { st with refs := objSet st.refs branch (commitHash ++ ['\n']) }

/-- `Repository.addFile`: read the working file (else throw `not found`),
    store its blob, bind the path in the index. -/
def Repository.addFile (relPath : Str) (st : RepoState) : Option RepoState :=
  match objGet st.working relPath with
  | none => none
  | some content =>
    let r := Repository.storeObject (Blob content) st
    some (Repository.saveIndex (objSet (Repository.loadIndex r.2) relPath r.1) r.2)

/-! ## Tree builder (`Repository.createTreeFromIndex`) -/

/-- The nested plain-object structure `createTreeFromIndex` builds:
    values are blob-hash strings or nested objects. -/
inductive NVal where
  | str (s : Str)
  | obj (children : List (Str × NVal))

/-- JS truthiness of such a value (`''` is falsy, objects are truthy). -/
def nvalTruthy : NVal → Bool
  | NVal.str s => !s.isEmpty
  | NVal.obj _ => true

/-- The middle of the per-path loop:
    `for part of parts.slice(1,-1) { if (!current[part]) current[part] = {};
    current = current[part]; } current[last] = blobHash`, as a functional
    update along the path.  Writing a property on a string primitive is a
    silent no-op in sloppy mode (first case); walking *into* a string leaves
    `current` undefined and the subsequent access throws (`none`; the
    string-numeric-index corner of JS property lookup is not modelled). -/
def walkAssign : List Str → NVal → Str → Str → Option NVal
  | [], NVal.str s, _, _ => some (NVal.str s)
  | [], NVal.obj l, last, blobHash =>
    some (NVal.obj (objSet l last (NVal.str blobHash)))
  | _ :: _, NVal.str _, _, _ => none
  | p :: rest, NVal.obj l, last, blobHash =>
    let child := match objGet l p with
      | some c => if nvalTruthy c then c else NVal.obj []
      | none => NVal.obj []
    match walkAssign rest child last blobHash with
    | none => none
    | some child2 => some (NVal.obj (objSet l p child2))

/-- The first loop of `createTreeFromIndex`: distribute index entries into
    the flat `files` object (single-segment paths) and the nested `dirs`
    object (everything else). -/
def buildDicts :
    List (Str × Str) → List (Str × NVal) × List (Str × NVal)
      → Option (List (Str × NVal) × List (Str × NVal))
  | [], acc => some acc
  | (filePath, blobHash) :: rest, (files, dirs) =>
    match splitCh '/' filePath with
    | [single] => buildDicts rest (objSet files single (NVal.str blobHash), dirs)
    | dirName :: p1 :: prest =>
      let v0 := match objGet dirs dirName with
        | some v => if nvalTruthy v then v else NVal.obj []
        | none => NVal.obj []
      match walkAssign (p1 :: prest).dropLast v0
          ((p1 :: prest).getLast (List.cons_ne_nil p1 prest)) blobHash with
      | none => none
      | some v1 => buildDicts rest (files, objSet dirs dirName v1)
    | [] => none

/-- `createTreeRecursive`, on a fuel bound: walk the dictionary in insertion
    order, strings become `100644` file entries, nested objects are built
    and stored first and become `40000` entries; the state accumulates
    every stored subtree. -/
def buildEntriesF : Nat → List (Str × NVal) → RepoState → List TreeEntry × RepoState
  | 0, _, st => ([], st)
  | _ + 1, [], st => ([], st)
  | f + 1, (name, NVal.str blobHash) :: rest, st =>
    let r := buildEntriesF f rest st
    (TreeEntry.mk ("100644".data) name blobHash :: r.1, r.2)
  | f + 1, (name, NVal.obj l) :: rest, st =>
    let rsub := buildEntriesF f l st
    let rstore := Repository.storeObject (treeObject rsub.1) rsub.2
    let r := buildEntriesF f rest rstore.2
    (TreeEntry.mk ("40000".data) name rstore.1 :: r.1, r.2)

/-- Fuel that dominates the tree-builder recursion: every dictionary entry
    and every nesting level stems from at least one path segment, and a
    path of length `n` has at most `n + 1` segments. -/
def treeBuildFuel (index : List (Str × Str)) : Nat :=
  2 * (index.map (fun p => p.1.length + 2)).sum + 2

/-- `Repository.createTreeFromIndex`: empty index stores (and returns) the
    empty tree; otherwise build the two dictionaries, merge them with the
    directories overwriting same-named files (`rootEntries[dname] =
    dcontents`), and build recursively.  `none` models a thrown error. -/
def Repository.createTreeFromIndex (st : RepoState) : Option (Str × RepoState) :=
  let index := Repository.loadIndex st
  if index.isEmpty then some (Repository.storeObject (treeObject []) st)
  else
    match buildDicts index ([], []) with
    | none => none
    | some (files, dirs) =>
      let rootEntries := dirs.foldl (fun acc p => objSet acc p.1 p.2) files
      let r := buildEntriesF (treeBuildFuel index) rootEntries st
      some (Repository.storeObject (treeObject r.1) r.2)

/-! ## Commit command -/

/-- `Repository.commit(message, author)`.  The result is `none` for a thrown
    error, `some (none, st)` for the "nothing to commit" no-op, and
    `some (some hash, st)` for a created commit.  `now` is the current Unix
    time `Math.floor(Date.now() / 1000)`. -/
def Repository.commit (message author : Str) (now : Nat) (st : RepoState) :
    Option (Option Str × RepoState) :=
  match Repository.createTreeFromIndex st with
  | none => none
  | some (treeHash, st1) =>
    let currentBranch := Repository.getCurrentBranch st1
    let parentCommit := Repository.getBranchCommit currentBranch st1
    let parentHashes := match parentCommit with
      | some pc => [pc]
      | none => []
    if (Repository.loadIndex st1).isEmpty then some (none, st1)
    else
      let clean := match parentCommit with
        | some pc =>
          match Repository.loadObject pc st1 with
          | some pobj =>
            decide ((commitFromContent pobj.content now).treeHash = some treeHash)
          | none => false
        | none => false
      if clean then some (none, st1)
      else
        let c := mkCommit (some treeHash) parentHashes author author message 0 now
        let rs := Repository.storeObject (commitObject c) st1
        some (some rs.1,
          Repository.saveIndex []
            (Repository.setBranchCommit currentBranch rs.1 rs.2))

/-! ## Working-tree walks -/

/-- `Set.add` over an insertion-ordered list. -/
def addToSet (l : List Str) (x : Str) : List Str := if x ∈ l then l else l ++ [x]

/-- Fuel that dominates the tree walks for every store the repository
    builds (tree references are acyclic and each entry occupies 21 payload
    bytes, so the unfolding is bounded by fan-out to the power of the
    depth). -/
def treeWalkFuel (st : RepoState) : Nat :=
  ((st.objects.map (fun p => p.2.content.length)).sum + 2) ^ (st.objects.length + 2)

/-- `Repository.getFilesFromTreeRecursive`: the set of repo-relative paths
    of blob entries reachable from a tree; a failed object load is caught
    and yields the files collected so far (necessarily none). -/
def Repository.getFilesFromTree : Nat → Str → Str → RepoState → List Str
  | 0, _, _, _ => []
  | f + 1, treeHash, pre, st =>
    match Repository.loadObject treeHash st with
    | none => []
    | some tobj =>
      (parseTreeEntries tobj.content).foldl (fun files e =>
        let fullName := pre ++ e.name
        if ("100".data).isPrefixOf e.mode then addToSet files fullName
        else if ("400".data).isPrefixOf e.mode then
          (Repository.getFilesFromTree f e.hashHex (fullName ++ ['/']) st).foldl
            addToSet files
        else files) []

/-- `path.join(dir, name)` for repo-relative paths (the repository root is
    the empty prefix). -/
def pathJoin (dirPath name : Str) : Str :=
  if dirPath.isEmpty then name else dirPath ++ '/' :: name

mutual

/-- `Repository.restoreTree`: write every blob entry under its path and
    recurse into subtrees (`ensureDirSync` has no observable effect in a
    file-map model).  A failed load throws (`none`). -/
def Repository.restoreTree : Nat → Str → Str → RepoState → Option RepoState
  | 0, _, _, st => some st
  | f + 1, treeHash, dirPath, st =>
    match Repository.loadObject treeHash st with
    | none => none
    | some tobj => Repository.restoreEntries f (parseTreeEntries tobj.content) dirPath st

/-- The entry loop of `restoreTree`. -/
def Repository.restoreEntries : Nat → List TreeEntry → Str → RepoState → Option RepoState
  | 0, _, _, st => some st
  | _ + 1, [], _, st => some st
  | f + 1, e :: rest, dirPath, st =>
    let filePath := pathJoin dirPath e.name
    if ("100".data).isPrefixOf e.mode then
      match Repository.loadObject e.hashHex st with
      | none => none
      | some blobObj =>
        Repository.restoreEntries f rest dirPath
          { st with working := objSet st.working filePath blobObj.content }
    else if ("400".data).isPrefixOf e.mode then
      match Repository.restoreTree f e.hashHex filePath st with
      | none => none
      | some st2 => Repository.restoreEntries f rest dirPath st2
    else Repository.restoreEntries f rest dirPath st

end

/-- JS default `Array.sort()` on strings compares code-unit sequences;
    on the paths involved this is codepoint-lexicographic order. -/
def strLe (a b : Str) : Prop := byteLe (a.map Char.toNat) (b.map Char.toNat) = true

instance : DecidableRel strLe :=
  fun a b =>
    (inferInstance : Decidable (byteLe (a.map Char.toNat) (b.map Char.toNat) = true))

instance : IsTotal Str strLe :=
  ⟨fun a b => by
    rcases Bool.or_eq_true _ _ ▸ byteLe_total (a.map Char.toNat) (b.map Char.toNat)
      with h | h
    · exact Or.inl h
    · exact Or.inr h⟩

instance : IsTrans Str strLe :=
  ⟨fun _ _ _ hab hbc => byteLe_trans _ _ _ hab hbc⟩

/-- `Repository.restoreWorkingDirectory`: nothing happens without a target
    commit; otherwise delete the cleared files (sorted, each skipped when
    absent), then materialize the target tree and reset the index. -/
def Repository.restoreWorkingDirectory (branch : Str) (filesToClear : List Str)
    (now : Nat) (st : RepoState) : Option RepoState :=
  match Repository.getBranchCommit branch st with
  | none => some st
  | some targetHash =>
    let cleared := (filesToClear.insertionSort strLe).foldl
      (fun w p => objRemove w p) st.working
    let st1 := { st with working := cleared }
    match Repository.loadObject targetHash st1 with
    | none => none
    | some cobj =>
      let target := commitFromContent cobj.content now
      match target.treeHash with
      | some th =>
        if th.isEmpty then some (Repository.saveIndex [] st1)
        else
          match Repository.restoreTree (treeWalkFuel st1) th [] st1 with
          | none => none
          | some st2 => some (Repository.saveIndex [] st2)
      | none => some (Repository.saveIndex [] st1)

/-! ## Checkout command -/

inductive CheckoutOutcome where
  | switched
  | branchNotFound
  | noCommitsYet
deriving DecidableEq, Repr

/-- The tail of `checkout` after the branch checks: overwrite HEAD, then
    restore the working directory. -/
def Repository.checkoutSwitch (branch : Str) (filesToClear : List Str) (now : Nat)
    (st : RepoState) : Option RepoState :=
  Repository.restoreWorkingDirectory branch filesToClear now
    { st with head := some (("ref: refs/heads/".data) ++ branch ++ ['\n']) }

/-- `Repository.checkout(branch, createBranch)`: compute the files tracked
    by the previous branch's commit (caught errors yield the empty set),
    handle the missing-ref cases, then switch. -/
def Repository.checkout (branch : Str) (createBranch : Bool) (now : Nat)
    (st : RepoState) : Option (CheckoutOutcome × RepoState) :=
  let previousBranch := Repository.getCurrentBranch st
  let previousCommitHash := Repository.getBranchCommit previousBranch st
  let filesToClear := match previousCommitHash with
    | none => []
    | some ph =>
      match Repository.loadObject ph st with
      | none => []
      | some pobj =>
        match (commitFromContent pobj.content now).treeHash with
        | some t =>
          if t.isEmpty then []
          else Repository.getFilesFromTree (treeWalkFuel st) t [] st
        | none => []
  if (objGet st.refs branch).isNone then
    if createBranch then
      match previousCommitHash with
      | some ph =>
        match Repository.checkoutSwitch branch filesToClear now
            (Repository.setBranchCommit branch ph st) with
        | none => none
        | some st2 => some (CheckoutOutcome.switched, st2)
      | none => some (CheckoutOutcome.noCommitsYet, st)
    else some (CheckoutOutcome.branchNotFound, st)
  else
    match Repository.checkoutSwitch branch filesToClear now st with
    | none => none
    | some st2 => some (CheckoutOutcome.switched, st2)

/-- `Repository.init` on a fresh directory holding `working`: HEAD points
    at master, no refs, no objects, empty index. -/
def Repository.initState (working : List (Str × Bytes)) : RepoState :=
  RepoState.mk (some ("ref: refs/heads/master\n".data)) [] [] [] working

/-! ## Concrete scenario states

The spec's S5 scenario: a repository whose working directory holds `a`
(bytes `"a\n"`); `add a`; `commit`; `checkout -b feat`; create `b` (bytes
`"b\n"`); `add b`; `commit`; `checkout master`.  The Unix timestamps are
arbitrary nonzero values. -/

def fileA : Bytes := [97, 10]

def fileB : Bytes := [98, 10]

def pygitAuthor : Str := "PyGit User <user@pygit.com>".data

def scen0 : RepoState := Repository.initState [("a".data, fileA)]

def scen1 : RepoState := (Repository.addFile ("a".data) scen0).getD scen0

def scen2 : RepoState :=
  ((Repository.commit ("one".data) pygitAuthor 1700000000 scen1).getD (none, scen1)).2

def scen3 : RepoState :=
  ((Repository.checkout ("feat".data) true 1700000001 scen2).getD
    (CheckoutOutcome.switched, scen2)).2

def scen4 : RepoState := { scen3 with working := objSet scen3.working ("b".data) fileB }

def scen5 : RepoState := (Repository.addFile ("b".data) scen4).getD scen4

def scen6 : RepoState :=
  ((Repository.commit ("two".data) pygitAuthor 1700000002 scen5).getD (none, scen5)).2

/-! ## Claim C1 -/

/-- C1 (amended): for every object of kind `k` with payload `p`, `hash()`
    is the 40-hex SHA-1 of the storage image `"<k> <decimal-length>\0" ++ p`,
    and `serialize()` is the zlib-deflate of that same storage image; the
    blob whose payload is the three bytes `"hi\n"` has identity
    `45b983be36b73c0788dc9cbcb76cbb80fc7bb057` (the spec's figure
    `32f95c3c…` is not the SHA-1 of `"blob 3\0hi\n"`). -/
theorem c1_hash_and_serialization :
    (∀ (k : Str) (p : Bytes),
      GitObject.hash (GitObject.mk k p)
        = sha1hex (utf8Str (k ++ [' '] ++ toDec p.length ++ ['\x00']) ++ p))
    ∧ (∀ (deflate : Bytes → Bytes) (k : Str) (p : Bytes),
      GitObject.serializeWith deflate (GitObject.mk k p)
        = deflate (utf8Str (k ++ [' '] ++ toDec p.length ++ ['\x00']) ++ p))
    ∧ GitObject.hash (Blob [104, 105, 10])
        = ("45b983be36b73c0788dc9cbcb76cbb80fc7bb057".data) :=
  ⟨fun _ _ => rfl, fun _ _ _ => rfl, by decide⟩

/-- C1 counterexample: the spec's concrete figure is wrong — the blob with
    payload `"hi\n"` does not hash to `32f95c3cf70b7aa19ca88912c84d0cbf7d9e62ae`. -/
theorem c1_counterexample :
    GitObject.hash (Blob [104, 105, 10])
      ≠ ("32f95c3cf70b7aa19ca88912c84d0cbf7d9e62ae".data) := by decide

/-! ## Claim C4 -/

def hex40a : Str := List.replicate 40 'a'

def hex40b : Str := List.replicate 40 'b'

/-- An index in which `a` is both a file and a directory (`a`, `a/b`). -/
def c4State : RepoState :=
  RepoState.mk (some ("ref: refs/heads/master\n".data)) [] []
    [("a".data, hex40a), ("a/b".data, hex40b)] []

/-- C4: on an index containing both `a` and `a/b`, `createTreeFromIndex`
    does NOT report a malformed-index error — it succeeds, and the root
    tree it stores lists `a` only as a `40000` directory entry: the blob
    staged at `a` has been silently overwritten by the directory
    (`rootEntries[dname] = dcontents`). -/
theorem c4_silent_overwrite :
    (Repository.createTreeFromIndex c4State).isSome = true
    ∧ (Repository.createTreeFromIndex c4State).map (fun r =>
        (parseTreeEntries ((Repository.loadObject r.1 r.2).getD
            (GitObject.mk [] [])).content).map (fun e => (e.mode, e.name)))
      = some [(("40000".data), ("a".data))] := by decide

/-! ## Claim C9 -/

/-- C9: checking out a branch whose ref file does not exist, with
    `createBranch = false`, reports branch-not-found and returns the state
    unchanged: HEAD, refs, objects, index and working tree are untouched. -/
theorem c9_branch_not_found (branch : Str) (now : Nat) (st : RepoState)
    (h : objGet st.refs branch = none) :
    Repository.checkout branch false now st
      = some (CheckoutOutcome.branchNotFound, st) := by
  simp [Repository.checkout, h]

def emptyRepo : RepoState := Repository.initState []

/-- C9 witness: a concrete checkout of a missing branch. -/
theorem c9_witness :
    Repository.checkout ("nope".data) false 3 emptyRepo
      = some (CheckoutOutcome.branchNotFound, emptyRepo) :=
  c9_branch_not_found ("nope".data) 3 emptyRepo (by decide)

/-! ## Claim C10 -/

/-- C10: when the HEAD file does not exist, `getCurrentBranch` returns
    `master`, so the branch ref every command consults and advances is the
    `master` ref. -/
theorem c10_missing_head (st : RepoState) (h : st.head = none) :
    Repository.getCurrentBranch st = ("master".data)
    ∧ Repository.getBranchCommit (Repository.getCurrentBranch st) st
        = (objGet st.refs ("master".data)).map trimStr := by
  refine ⟨?_, ?_⟩
  · simp [Repository.getCurrentBranch, h]
  · simp [Repository.getCurrentBranch, Repository.getBranchCommit, h]

def headlessRepo : RepoState := RepoState.mk none [] [] [] []

/-- C10 witness: a concrete repository with no HEAD file. -/
theorem c10_witness :
    Repository.getCurrentBranch headlessRepo = ("master".data)
    ∧ Repository.getBranchCommit (Repository.getCurrentBranch headlessRepo) headlessRepo
        = (objGet headlessRepo.refs ("master".data)).map trimStr :=
  c10_missing_head headlessRepo rfl

/-! ## Claim C8 -/

/-- C8: in the S5 scenario state (master tracks only `a`; branch `feat`
    was created, `b` added and committed on it), the files reachable from
    the previous branch's (`feat`) commit tree are exactly `b`, and
    `checkout master` deletes `b` from the working tree while leaving `a`
    with its original bytes. -/
theorem c8_checkout_clears_previous_files :
    ((Repository.getBranchCommit (Repository.getCurrentBranch scen6) scen6).bind
        (fun ph => (Repository.loadObject ph scen6).map (fun o =>
          match (commitFromContent o.content 1700000003).treeHash with
          | some t => Repository.getFilesFromTree (treeWalkFuel scen6) t [] scen6
          | none => [])))
      = some [("b".data)]
    ∧ (Repository.checkout ("master".data) false 1700000003 scen6).map
        (fun p => (p.1, objGet p.2.working ("b".data), objGet p.2.working ("a".data)))
      = some (CheckoutOutcome.switched, none, some fileA) := by decide

/-! ## Support lemmas for the commit guards (C3) -/

theorem objGet_objSet_self {α : Type} [Nonempty α] (l : List (Str × α)) (k : Str)
    (v : α) : objGet (objSet l k v) k = some v := by
  by_cases h : (l.find? (fun p => p.1 = k)).isSome
  · rw [objSet, if_pos h]
    induction l with
    | nil => simp at h
    | cons p t ih =>
      by_cases hp : p.1 = k
      · simp [objGet, List.find?_cons, hp]
      · rw [List.map_cons, if_neg hp]
        have h' : (t.find? (fun p => p.1 = k)).isSome := by
          simpa [List.find?_cons, hp] using h
        simpa [objGet, List.find?_cons, hp] using ih h'
  · rw [objSet, if_neg h]
    induction l with
    | nil => simp [objGet, List.find?]
    | cons p t ih =>
      by_cases hp : p.1 = k
      · exfalso
        exact h (by simp [List.find?_cons, hp])
      · have h' : ¬ (t.find? (fun p => p.1 = k)).isSome := by
          simpa [List.find?_cons, hp] using h
        simpa [objGet, List.cons_append, List.find?_cons, hp] using ih h'

instance : Nonempty GitObject := ⟨GitObject.mk [] []⟩

theorem hexDigit_isLowerHex (m : Nat) (hm : m < 16) :
    isLowerHexCh (hexDigit m) = true := by
  rw [hexDigit]
  by_cases h : m < 10
  · have hv : (48 + m).isValidChar := Or.inl (by omega)
    have ht : (Char.ofNat (48 + m)).toNat = 48 + m := by
      simp [Char.ofNat, hv, Char.ofNatAux, Char.toNat, UInt32.toNat, UInt32.ofNat']
    rw [if_pos h]
    simp [isLowerHexCh, ht]
    omega
  · have hv : (87 + m).isValidChar := Or.inl (by omega)
    have ht : (Char.ofNat (87 + m)).toNat = 87 + m := by
      simp [Char.ofNat, hv, Char.ofNatAux, Char.toNat, UInt32.toNat, UInt32.ofNat']
    rw [if_neg h]
    simp [isLowerHexCh, ht]
    omega

theorem hexEncode_all_lowerHex (b : Bytes) (hb : ∀ x ∈ b, x < 256) :
    ∀ c ∈ hexEncode b, isLowerHexCh c = true := by
  intro c hc
  rw [hexEncode] at hc
  rcases List.mem_flatMap.mp hc with ⟨x, hx, hcx⟩
  have hx256 : x < 256 := hb x hx
  rcases List.mem_cons.mp hcx with rfl | h2
  · exact hexDigit_isLowerHex _ (by omega)
  · rcases List.mem_cons.mp h2 with rfl | h3
    · exact hexDigit_isLowerHex _ (by omega)
    · simp at h3

theorem beBytes_all_lt (k : Nat) : ∀ (n : Nat), ∀ x ∈ beBytes k n, x < 256 := by
  induction k with
  | zero => intro n x hx; simp [beBytes] at hx
  | succ k ih =>
    intro n x hx
    rw [beBytes] at hx
    rcases List.mem_append.mp hx with h | h
    · exact ih (n / 256) x h
    · have : x = n % 256 := by simpa using h
      subst this
      exact Nat.mod_lt _ (by decide)

theorem sha1hex_all_lowerHex (msg : Bytes) :
    ∀ c ∈ sha1hex msg, isLowerHexCh c = true := by
  intro c hc
  rw [sha1hex] at hc
  refine hexEncode_all_lowerHex _ ?_ c hc
  intro x hx
  rcases List.mem_append.mp hx with h | h
  · rcases List.mem_append.mp h with h | h
    · rcases List.mem_append.mp h with h | h
      · rcases List.mem_append.mp h with h | h
        · exact beBytes_all_lt 4 _ x h
        · exact beBytes_all_lt 4 _ x h
      · exact beBytes_all_lt 4 _ x h
    · exact beBytes_all_lt 4 _ x h
  · exact beBytes_all_lt 4 _ x h

theorem lowerHex_not_ws (c : Char) (h : isLowerHexCh c = true) : isWsCh c = false := by
  simp only [isLowerHexCh, Bool.or_eq_true, Bool.and_eq_true, decide_eq_true_eq] at h
  cases hws : isWsCh c
  · rfl
  · exfalso
    have hc : ((c = ' ' ∨ c = '\n') ∨ c = '\t') ∨ c = '\r' := by
      simpa [isWsCh] using hws
    rcases hc with ((h' | h') | h') | h' <;>
      · rw [h'] at h
        revert h
        decide

theorem dropWhile_eq_self_of_all {p : Char → Bool} (l : Str)
    (h : ∀ c ∈ l, p c = false) : l.dropWhile p = l := by
  cases l with
  | nil => rfl
  | cons c t =>
    rw [List.dropWhile_cons, if_neg]
    simp [h c (by simp)]

theorem trimStr_append_newline (s : Str) (hs : ∀ c ∈ s, isWsCh c = false) :
    trimStr (s ++ ['\n']) = s := by
  cases s with
  | nil => decide
  | cons c s' =>
    have hc : isWsCh c = false := hs c (by simp)
    rw [trimStr]
    have h1 : ((c :: s') ++ ['\n']).dropWhile isWsCh = (c :: s') ++ ['\n'] := by
      rw [List.cons_append, List.dropWhile_cons, if_neg (by simp [hc])]
    rw [h1]
    have h2 : ((c :: s') ++ ['\n']).reverse = '\n' :: (c :: s').reverse := by
      rw [List.reverse_append]
      rfl
    rw [h2, List.dropWhile_cons, if_pos (by decide)]
    have h3 : (c :: s').reverse.dropWhile isWsCh = (c :: s').reverse := by
      apply dropWhile_eq_self_of_all
      intro x hx
      exact hs x (List.mem_reverse.mp hx)
    rw [h3, List.reverse_reverse]

theorem storeObject_preserves (o : GitObject) (st : RepoState) :
    (Repository.storeObject o st).2.head = st.head
    ∧ (Repository.storeObject o st).2.refs = st.refs
    ∧ (Repository.storeObject o st).2.index = st.index
    ∧ (Repository.storeObject o st).2.working = st.working
    ∧ List.IsPrefix st.objects (Repository.storeObject o st).2.objects := by
  rcases h : objGet st.objects (GitObject.hash o) with _ | g
  · refine ⟨?_, ?_, ?_, ?_, ?_⟩ <;>
      simp [Repository.storeObject, h, List.prefix_append]
  · refine ⟨?_, ?_, ?_, ?_, ?_⟩ <;>
      simp [Repository.storeObject, h]

theorem buildEntriesF_preserves (f : Nat) :
    ∀ (d : List (Str × NVal)) (st : RepoState),
      (buildEntriesF f d st).2.head = st.head
      ∧ (buildEntriesF f d st).2.refs = st.refs
      ∧ (buildEntriesF f d st).2.index = st.index
      ∧ (buildEntriesF f d st).2.working = st.working
      ∧ List.IsPrefix st.objects (buildEntriesF f d st).2.objects := by
  induction f with
  | zero =>
    intro d st
    simp [buildEntriesF]
  | succ f ih =>
    intro d st
    match d with
    | [] => simp [buildEntriesF]
    | (name, NVal.str bh) :: rest =>
      simpa [buildEntriesF] using ih rest st
    | (name, NVal.obj l) :: rest =>
      have h1 := ih l st
      have h2 := storeObject_preserves (treeObject (buildEntriesF f l st).1)
        (buildEntriesF f l st).2
      have h3 := ih rest
        (Repository.storeObject (treeObject (buildEntriesF f l st).1)
          (buildEntriesF f l st).2).2
      simp only [buildEntriesF]
      exact ⟨h3.1.trans (h2.1.trans h1.1),
        h3.2.1.trans (h2.2.1.trans h1.2.1),
        h3.2.2.1.trans (h2.2.2.1.trans h1.2.2.1),
        h3.2.2.2.1.trans (h2.2.2.2.1.trans h1.2.2.2.1),
        (h1.2.2.2.2.trans h2.2.2.2.2).trans h3.2.2.2.2⟩

theorem createTreeFromIndex_preserves (st : RepoState) (th : Str) (st1 : RepoState)
    (h : Repository.createTreeFromIndex st = some (th, st1)) :
    st1.head = st.head ∧ st1.refs = st.refs ∧ st1.index = st.index
    ∧ st1.working = st.working ∧ List.IsPrefix st.objects st1.objects := by
  rw [Repository.createTreeFromIndex] at h
  by_cases he : (Repository.loadIndex st).isEmpty
  · rw [if_pos he] at h
    have h2 := storeObject_preserves (treeObject []) st
    injection h with h
    have hst : st1 = (Repository.storeObject (treeObject []) st).2 := by rw [h]
    rw [hst]
    exact h2
  · rw [if_neg he] at h
    rcases hb : buildDicts (Repository.loadIndex st) ([], []) with _ | fd
    · rw [hb] at h
      cases h
    · rcases fd with ⟨files, dirs⟩
      rw [hb] at h
      injection h with h
      have h1 := buildEntriesF_preserves (treeBuildFuel (Repository.loadIndex st))
        (dirs.foldl (fun acc p => objSet acc p.1 p.2) files) st
      have h2 := storeObject_preserves
        (treeObject ((buildEntriesF (treeBuildFuel (Repository.loadIndex st))
          (dirs.foldl (fun acc p => objSet acc p.1 p.2) files) st).1))
        ((buildEntriesF (treeBuildFuel (Repository.loadIndex st))
          (dirs.foldl (fun acc p => objSet acc p.1 p.2) files) st).2)
      have hst : st1 = (Repository.storeObject
          (treeObject ((buildEntriesF (treeBuildFuel (Repository.loadIndex st))
            (dirs.foldl (fun acc p => objSet acc p.1 p.2) files) st).1))
          ((buildEntriesF (treeBuildFuel (Repository.loadIndex st))
            (dirs.foldl (fun acc p => objSet acc p.1 p.2) files) st).2)).2 := by
        rw [h]
      rw [hst]
      exact ⟨h2.1.trans h1.1, h2.2.1.trans h1.2.1, h2.2.2.1.trans h1.2.2.1,
        h2.2.2.2.1.trans h1.2.2.2.1, h1.2.2.2.2.trans h2.2.2.2.2⟩

theorem storeObject_fst (o : GitObject) (st : RepoState) :
    (Repository.storeObject o st).1 = GitObject.hash o := by
  rcases h : objGet st.objects (GitObject.hash o) with _ | g <;>
    simp [Repository.storeObject, h]

theorem c3_commit_guards (message author : Str) (now : Nat) (st : RepoState)
    (th : Str) (st1 : RepoState)
    (hbuild : Repository.createTreeFromIndex st = some (th, st1)) :
    (st1.head = st.head ∧ st1.refs = st.refs ∧ st1.index = st.index
      ∧ List.IsPrefix st.objects st1.objects)
    ∧ ((Repository.loadIndex st).isEmpty = true →
        Repository.commit message author now st = some (none, st1))
    ∧ (∀ pc pobj, (Repository.loadIndex st).isEmpty = false →
        Repository.getBranchCommit (Repository.getCurrentBranch st) st = some pc →
        Repository.loadObject pc st1 = some pobj →
        (commitFromContent pobj.content now).treeHash = some th →
        Repository.commit message author now st = some (none, st1))
    ∧ ((Repository.loadIndex st).isEmpty = false →
        (∀ pc, Repository.getBranchCommit (Repository.getCurrentBranch st) st = some pc →
          ∀ pobj, Repository.loadObject pc st1 = some pobj →
            (commitFromContent pobj.content now).treeHash ≠ some th) →
        ∃ ch st4, Repository.commit message author now st = some (some ch, st4)
          ∧ ch = GitObject.hash (commitObject (mkCommit (some th)
              (match Repository.getBranchCommit (Repository.getCurrentBranch st) st with
               | some pc => [pc]
               | none => []) author author message 0 now))
          ∧ st4.index = []
          ∧ st4.head = st.head
          ∧ Repository.getBranchCommit (Repository.getCurrentBranch st) st4 = some ch) := by
  have pres := createTreeFromIndex_preserves st th st1 hbuild
  have hbr : Repository.getCurrentBranch st1 = Repository.getCurrentBranch st := by
    rw [Repository.getCurrentBranch, Repository.getCurrentBranch, pres.1]
  have hrefs : ∀ b, Repository.getBranchCommit b st1 = Repository.getBranchCommit b st := by
    intro b
    rw [Repository.getBranchCommit, Repository.getBranchCommit, pres.2.1]
  have hidx : Repository.loadIndex st1 = Repository.loadIndex st := by
    rw [Repository.loadIndex, Repository.loadIndex, pres.2.2.1]
  refine ⟨⟨pres.1, pres.2.1, pres.2.2.1, pres.2.2.2.2⟩, ?_, ?_, ?_⟩
  · intro hempty
    rw [Repository.commit, hbuild]
    simp only [hbr, hrefs, hidx]
    rw [if_pos hempty]
  · intro pc pobj hne hpc hload hclean
    rw [Repository.commit, hbuild]
    simp only [hbr, hrefs, hidx]
    rw [if_neg (by simp [hne]), hpc]
    simp only [hload, hclean]
    simp
  · intro hne hdirty
    rw [Repository.commit, hbuild]
    simp only [hbr, hrefs, hidx]
    rw [if_neg (by simp [hne])]
    have hcleanfalse :
        (match Repository.getBranchCommit (Repository.getCurrentBranch st) st with
          | some pc =>
            match Repository.loadObject pc st1 with
            | some pobj =>
              decide ((commitFromContent pobj.content now).treeHash = some th)
            | none => false
          | none => false) = false := by
      rcases hpc : Repository.getBranchCommit (Repository.getCurrentBranch st) st
        with _ | pc
      · rfl
      · rcases hload : Repository.loadObject pc st1 with _ | pobj
        · simp [hload]
        · simp only [hload, decide_eq_false_iff_not]
          exact hdirty pc hpc pobj hload
    rw [hcleanfalse]
    simp only [Bool.false_eq_true, if_false]
    refine ⟨_, _, rfl, ?_, rfl, ?_, ?_⟩
    · rw [storeObject_fst]
    · show (Repository.storeObject _ st1).2.head = st.head
      exact (storeObject_preserves _ st1).1.trans pres.1
    · rw [Repository.getBranchCommit]
      simp only [Repository.saveIndex, Repository.setBranchCommit]
      rw [objGet_objSet_self]
      simp only [Option.map_some']
      rw [storeObject_fst, trimStr_append_newline]
      intro c hc
      exact lowerHex_not_ws c (sha1hex_all_lowerHex _ c hc)

/-- C3 counterexample: in the state after the scenario's first commit the
    index is empty but a parent commit exists, and the tree built from the
    (empty) index differs from the parent's tree — so by the claim a new
    commit should be written; the code instead is a no-op ("nothing to
    commit"), and it has even stored a new object (the empty tree) on the
    way: the first guard tests only index emptiness, and the tree build
    runs before both guards. -/
theorem c3_counterexample :
    (Repository.commit ("two".data) pygitAuthor 1700000002 scen2).map (fun p => p.1)
      = some none
    ∧ (Repository.loadIndex scen2).isEmpty = true
    ∧ Repository.getBranchCommit (Repository.getCurrentBranch scen2) scen2
        = some ("aaec9f946058c1fb9a3558196cde4b245ceb542b".data)
    ∧ (Repository.createTreeFromIndex scen2).map (fun p => p.1)
        = some ("4b825dc642cb6eb9a060e54bf8d69288fbee4904".data)
    ∧ ((Repository.loadObject ("aaec9f946058c1fb9a3558196cde4b245ceb542b".data)
          scen2).map (fun o => (commitFromContent o.content 1700000002).treeHash))
        = some (some ("aaff74984cccd156a469afa7d9ab10e4777beb24".data))
    ∧ ("4b825dc642cb6eb9a060e54bf8d69288fbee4904".data)
        ≠ ("aaff74984cccd156a469afa7d9ab10e4777beb24".data)
    ∧ (Repository.commit ("two".data) pygitAuthor 1700000002 scen2).map
        (fun p => p.2.objects.length) = some (scen2.objects.length + 1) := by decide

/-- C3 witness: the empty-index guard fires on the concrete post-commit
    state, yielding the no-op result with only the empty tree stored. -/
theorem c3_witness :
    Repository.commit ("two".data) pygitAuthor 1700000002 scen2
      = some (none, (Repository.storeObject (treeObject []) scen2).2) :=
  ((c3_commit_guards ("two".data) pygitAuthor 1700000002 scen2
      (Repository.storeObject (treeObject []) scen2).1
      (Repository.storeObject (treeObject []) scen2).2 (by decide)).2.1) (by decide)

/-! ## Claim C2 -/

/-- Strictified comparator: `entryLe` together with distinct names. -/
def entryLt (a b : TreeEntry) : Prop := entryLe a b ∧ a.name ≠ b.name

instance : IsAntisymm TreeEntry entryLt :=
  ⟨fun a b hab hba =>
    absurd (utf8Str_injective _ _ (byteLe_antisymm _ _ hab.1 hba.1)) hab.2⟩

theorem pairwise_entryLt (l : List TreeEntry) (hs : List.Pairwise entryLe l)
    (hnd : (l.map TreeEntry.name).Nodup) : List.Pairwise entryLt l := by
  have h2 : List.Pairwise (fun a b : TreeEntry => a.name ≠ b.name) l :=
    List.pairwise_map.mp hnd
  exact hs.and h2

theorem sortEntries_unique (l1 l2 : List TreeEntry) (hp : l1.Perm l2)
    (hnd : (l2.map TreeEntry.name).Nodup) : sortEntries l1 = sortEntries l2 := by
  have hnd1 : ((sortEntries l1).map TreeEntry.name).Nodup :=
    (((List.perm_insertionSort entryLe l1).trans hp).map TreeEntry.name).nodup_iff.mpr hnd
  have hnd2 : ((sortEntries l2).map TreeEntry.name).Nodup :=
    ((List.perm_insertionSort entryLe l2).map TreeEntry.name).nodup_iff.mpr hnd
  refine List.eq_of_perm_of_sorted (r := entryLt) ?_ ?_ ?_
  · exact (List.perm_insertionSort entryLe l1).trans
      (hp.trans (List.perm_insertionSort entryLe l2).symm)
  · exact pairwise_entryLt _ (List.sorted_insertionSort entryLe l1) hnd1
  · exact pairwise_entryLt _ (List.sorted_insertionSort entryLe l2) hnd2

/-- C2: the serialized tree payload lists the entries sorted ascending by
    name under byte-lexicographic order on the raw (UTF-8) name bytes —
    whatever order `addEntry` inserted them in — and each entry contributes
    the bytes of `"<mode> <name>\0"` followed by the 20 raw bytes decoded
    from its 40-hex child id; with distinct names the payload is therefore
    identical for every insertion order. -/
theorem c2_tree_serialization (entries : List TreeEntry) :
    serializeEntries entries = (sortEntries entries).flatMap encodeEntry
    ∧ (sortEntries entries).Perm entries
    ∧ List.Pairwise (fun a b => byteLe (utf8Str a.name) (utf8Str b.name) = true)
        (sortEntries entries)
    ∧ (∀ e : TreeEntry, encodeEntry e
        = utf8Str (e.mode ++ [' '] ++ e.name ++ ['\x00']) ++ hexDecode e.hashHex)
    ∧ (∀ h : Str, h.length = 40 → (hexDecode h).length = 20)
    ∧ (∀ entries2 : List TreeEntry, entries2.Perm entries →
        (entries.map TreeEntry.name).Nodup →
        serializeEntries entries2 = serializeEntries entries) := by
  refine ⟨rfl, List.perm_insertionSort entryLe entries,
    List.sorted_insertionSort entryLe entries, fun e => rfl, ?_, ?_⟩
  · intro h hlen
    rw [hexDecode_length, hlen]
  · intro entries2 hp hnd
    rw [serializeEntries, serializeEntries, sortEntries_unique entries2 entries hp hnd]

def entA : TreeEntry := TreeEntry.mk ("40000".data) ("a".data) hex40b

def entB : TreeEntry := TreeEntry.mk ("100644".data) ("b".data) hex40a

/-- C2 witness: two insertion orders of the same two entries serialize to
    the same payload, and sorting permutes the entries. -/
theorem c2_witness :
    serializeEntries [entB, entA] = serializeEntries [entA, entB]
    ∧ (sortEntries [entA, entB]).Perm [entA, entB] :=
  ⟨(c2_tree_serialization [entA, entB]).2.2.2.2.2 [entB, entA] (by decide) (by decide),
    (c2_tree_serialization [entA, entB]).2.1⟩

/-! ## Claim C7 -/

theorem objGet_eq_none_of_not_mem {α : Type} [Nonempty α] (l : List (Str × α)) (k : Str)
    (h : k ∉ l.map Prod.fst) : objGet l k = none := by
  induction l with
  | nil => rfl
  | cons p t ih =>
    have hp : ¬ (p.1 = k) := fun he => h (by simp [← he])
    have ht : k ∉ t.map Prod.fst := fun hm => h (by simp [hm])
    simpa [objGet, List.find?_cons, hp] using ih ht

theorem assoc_eq_of_lookups {α : Type} [Nonempty α] :
    ∀ (l1 l2 : List (Str × α)), l1.map Prod.fst = l2.map Prod.fst →
      (l1.map Prod.fst).Nodup → (∀ k, objGet l1 k = objGet l2 k) → l1 = l2
  | [], [], _, _, _ => rfl
  | [], (q :: t2), hk, _, _ => by simp at hk
  | (p :: t1), [], hk, _, _ => by simp at hk
  | (p :: t1), (q :: t2), hk, hnd, hget => by
    simp only [List.map_cons, List.cons.injEq] at hk
    have hkey : p.1 = q.1 := hk.1
    have hv : p.2 = q.2 := by
      have h1 : objGet (p :: t1) p.1 = some p.2 := by
        simp [objGet, List.find?_cons]
      have h2 : objGet (q :: t2) p.1 = some q.2 := by
        simp [objGet, List.find?_cons, hkey]
      have := (h1.symm.trans (hget p.1)).trans h2
      simpa using this
    have hout1 : p.1 ∉ t1.map Prod.fst := by
      simp only [List.map_cons, List.nodup_cons] at hnd
      exact hnd.1
    have hout2 : p.1 ∉ t2.map Prod.fst := by
      rw [← hk.2]
      exact hout1
    have htget : ∀ k, objGet t1 k = objGet t2 k := by
      intro k
      by_cases hkp : p.1 = k
      · subst hkp
        rw [objGet_eq_none_of_not_mem t1 p.1 hout1,
          objGet_eq_none_of_not_mem t2 p.1 hout2]
      · have := hget k
        simpa [objGet, List.find?_cons, hkp, hkey ▸ hkp] using this
    have hnd' : (t1.map Prod.fst).Nodup := by
      simp only [List.map_cons, List.nodup_cons] at hnd
      exact hnd.2
    have ht : t1 = t2 := assoc_eq_of_lookups t1 t2 hk.2 hnd' htget
    have hpq : p = q := Prod.ext hkey hv
    rw [hpq, ht]

/-- C7 (amended): `saveIndex` writes `JSON.stringify(idx, null, 2)`, which
    lists the keys in insertion order (not sorted); two saves of indexes
    with the same key sequence that are equal as mappings produce identical
    file bytes, but equal mappings inserted in different orders generally
    do not. -/
theorem c7_insertion_order_determinism (l1 l2 : List (Str × Str))
    (hk : l1.map Prod.fst = l2.map Prod.fst)
    (hnd : (l1.map Prod.fst).Nodup)
    (hget : ∀ k, objGet l1 k = objGet l2 k) :
    saveIndexText l1 = saveIndexText l2 := by
  rw [assoc_eq_of_lookups l1 l2 hk hnd hget]

def ixAB : List (Str × Str) := [("a".data, hex40a), ("b".data, hex40b)]

def ixBA : List (Str × Str) := [("b".data, hex40b), ("a".data, hex40a)]

/-- C7 counterexample: two indexes equal as mappings but built in different
    insertion orders serialize to different bytes — `JSON.stringify` does
    not sort the keys. -/
theorem c7_counterexample :
    objGet ixAB = objGet ixBA ∧ saveIndexText ixAB ≠ saveIndexText ixBA := by
  constructor
  · funext k
    by_cases ha : k = ("a".data)
    · subst ha
      decide
    · by_cases hb : k = ("b".data)
      · subst hb
        decide
      · rw [objGet_eq_none_of_not_mem ixAB k (by simp [ixAB, ha, hb]),
          objGet_eq_none_of_not_mem ixBA k (by simp [ixBA, ha, hb])]
  · decide

/-- C7 witness: equal association lists produce equal bytes. -/
theorem c7_witness : saveIndexText ixAB = saveIndexText ixAB :=
  c7_insertion_order_determinism ixAB ixAB rfl (by decide) (fun _ => rfl)

/-! ## Claim C5 -/

theorem splitCh_append (d : Char) (u v : Str) :
    splitCh d (u ++ d :: v) = splitCh d u ++ splitCh d v := by
  induction u with
  | nil =>
    simp only [List.nil_append, splitCh]
    rcases h : splitCh d v with _ | ⟨h1, t1⟩
    · exact absurd h (splitCh_ne_nil d v)
    · simp
  | cons c u ih =>
    simp only [List.cons_append, splitCh, List.append_eq]
    rw [ih]
    rcases h : splitCh d u with _ | ⟨h1, t1⟩
    · exact absurd h (splitCh_ne_nil d u)
    · by_cases hc : c = d <;> simp [h, hc]

theorem findIdx?_zero_append (v : Bytes) :
    ∀ (u : Bytes) (i : Nat), (∀ b ∈ u, b ≠ 0) →
      List.findIdx? (fun x => x == 0) (u ++ 0 :: v) i = some (i + u.length) := by
  intro u
  induction u with
  | nil =>
    intro i _
    simp [List.findIdx?]
  | cons b u ih =>
    intro i hu
    have hb : (b == 0) = false := by
      simp [hu b (by simp)]
    have harith : i + 1 + u.length = i + (u.length + 1) := by omega
    rw [List.cons_append, List.findIdx?, hb, ih (i + 1) (fun x hx => hu x (by simp [hx])),
      List.length_cons, harith]
    simp

theorem utf8Char_mem_cases (c : Char) (b : Nat) (hb : b ∈ utf8Char c) :
    (b = c.toNat ∧ c.toNat < 128) ∨ 128 ≤ b := by
  rw [utf8Char] at hb
  by_cases h1 : c.toNat < 128
  · rw [if_pos h1] at hb
    simp at hb
    exact Or.inl ⟨hb, h1⟩
  · rw [if_neg h1] at hb
    refine Or.inr ?_
    by_cases h2 : c.toNat < 2048
    · rw [if_pos h2] at hb
      rcases List.mem_cons.mp hb with rfl | hb2
      · omega
      · simp at hb2
        omega
    · rw [if_neg h2] at hb
      by_cases h3 : c.toNat < 65536
      · rw [if_pos h3] at hb
        rcases List.mem_cons.mp hb with rfl | hb2
        · omega
        · rcases List.mem_cons.mp hb2 with rfl | hb3
          · omega
          · simp at hb3
            rcases hb3 with rfl | rfl <;> omega
      · rw [if_neg h3] at hb
        rcases List.mem_cons.mp hb with rfl | hb2
        · omega
        · rcases List.mem_cons.mp hb2 with rfl | hb3
          · omega
          · rcases List.mem_cons.mp hb3 with rfl | hb4
            · omega
            · simp at hb4
              rcases hb4 with rfl | rfl <;> omega

theorem utf8Str_no_ascii_byte (s : Str) (c0 : Char) (hmem : c0 ∉ s)
    (hascii : c0.toNat < 128) : ∀ b ∈ utf8Str s, b ≠ c0.toNat := by
  intro b hb
  rcases List.mem_flatMap.mp hb with ⟨x, hx, hbx⟩
  rcases utf8Char_mem_cases x b hbx with ⟨rfl, hxa⟩ | h128
  · intro he
    have : x = c0 := by
      have h1 := mkChar_toNat x
      have h2 := mkChar_toNat c0
      rw [← h1, ← h2, he]
    exact hmem (this ▸ hx)
  · intro he
    omega

/-- The validity assumptions of C5 on one tree entry, plus the two
    conditions the counterexample forces: no space in the name and a
    lowercase id. -/
def wfEntry (e : TreeEntry) : Prop :=
  (e.mode = ("100644".data) ∨ e.mode = ("40000".data))
  ∧ '\x00' ∉ e.name ∧ '/' ∉ e.name ∧ ' ' ∉ e.name
  ∧ e.hashHex.length = 40 ∧ (∀ c ∈ e.hashHex, isLowerHexCh c = true)


theorem utf8Char_space : utf8Char ' ' = [32] := by decide

theorem utf8Char_nul : utf8Char '\x00' = [0] := by decide

theorem parseF_flatMap :
    ∀ (es : List TreeEntry) (f : Nat), (∀ e ∈ es, wfEntry e) →
      (es.flatMap encodeEntry).length ≤ f →
      parseTreeEntriesF f (es.flatMap encodeEntry) = es := by
  intro es
  induction es with
  | nil =>
    intro f _ _
    cases f <;> rfl
  | cons e es ih =>
    intro f hwf hf
    obtain ⟨m, nm, hh⟩ := e
    have hw := hwf _ (List.mem_cons_self _ _)
    obtain ⟨hmode, hnul, hslash, hspace, hlen, hlower⟩ := hw
    simp only at hmode hnul hslash hspace hlen hlower
    have hmodeNoNul : ∀ b ∈ utf8Str m, b ≠ 0 := by
      rcases hmode with h | h <;> (rw [h]; decide)
    have hmodeNoSp : ' ' ∉ m := by
      rcases hmode with h | h <;> (rw [h]; decide)
    have hnameNoNul : ∀ b ∈ utf8Str nm, b ≠ 0 := by
      have := utf8Str_no_ascii_byte nm '\x00' hnul (by decide)
      simpa using this
    -- the byte-level shape of one encoded entry
    have henc : encodeEntry ⟨m, nm, hh⟩ ++ es.flatMap encodeEntry
        = (utf8Str m ++ 32 :: utf8Str nm)
          ++ 0 :: (hexDecode hh ++ es.flatMap encodeEntry) := by
      simp only [encodeEntry, utf8Str, List.flatMap_append, List.flatMap_cons,
        List.flatMap_nil, utf8Char_space, utf8Char_nul, List.append_assoc,
        List.cons_append, List.nil_append, List.append_nil]
    have hflat : (⟨m, nm, hh⟩ :: es).flatMap encodeEntry
        = encodeEntry ⟨m, nm, hh⟩ ++ es.flatMap encodeEntry := by
      rw [List.flatMap_cons]
    have hulen : ∀ b ∈ utf8Str m ++ 32 :: utf8Str nm, b ≠ 0 := by
      intro b hb
      rcases List.mem_append.mp hb with h | h
      · exact hmodeNoNul b h
      · rcases List.mem_cons.mp h with rfl | h
        · omega
        · exact hnameNoNul b h
    obtain ⟨g, rfl⟩ : ∃ g, f = g + 1 := by
      refine ⟨f - 1, ?_⟩
      rw [hflat, henc] at hf
      simp only [List.length_append, List.length_cons] at hf
      omega
    rw [hflat, henc, parseTreeEntriesF,
      findIdx?_zero_append _ _ 0 hulen, Nat.zero_add]
    simp only
    have htake : ((utf8Str m ++ 32 :: utf8Str nm)
        ++ 0 :: (hexDecode hh ++ es.flatMap encodeEntry)).take
          (utf8Str m ++ 32 :: utf8Str nm).length = utf8Str m ++ 32 :: utf8Str nm :=
      List.take_left _ _
    have hform : utf8Str m ++ 32 :: utf8Str nm = utf8Str (m ++ ' ' :: nm) := by
      simp only [utf8Str, List.flatMap_append, List.flatMap_cons, utf8Char_space,
        List.cons_append, List.nil_append]
    have hdecode : utf8Decode (utf8Str m ++ 32 :: utf8Str nm) = m ++ ' ' :: nm := by
      rw [hform, utf8Decode_utf8Str]
    have hsplit : splitCh ' ' (m ++ ' ' :: nm) = [m, nm] := by
      rw [splitCh_append, splitCh_of_not_mem ' ' m hmodeNoSp,
        splitCh_of_not_mem ' ' nm hspace]
      rfl
    have hdrop1 : ((utf8Str m ++ 32 :: utf8Str nm)
        ++ 0 :: (hexDecode hh ++ es.flatMap encodeEntry)).drop
          ((utf8Str m ++ 32 :: utf8Str nm).length + 1)
        = hexDecode hh ++ es.flatMap encodeEntry := by
      have hshape : (utf8Str m ++ 32 :: utf8Str nm)
          ++ 0 :: (hexDecode hh ++ es.flatMap encodeEntry)
          = ((utf8Str m ++ 32 :: utf8Str nm) ++ [0])
            ++ (hexDecode hh ++ es.flatMap encodeEntry) := by
        simp
      have hlen1 : (utf8Str m ++ 32 :: utf8Str nm).length + 1
          = ((utf8Str m ++ 32 :: utf8Str nm) ++ [0]).length := by
        simp only [List.length_append, List.length_cons, List.length_nil]
      rw [hshape, hlen1, List.drop_left]
    have h20 : (hexDecode hh).length = 20 := by
      rw [hexDecode_length, hlen]
    have htake20 : (hexDecode hh ++ es.flatMap encodeEntry).take 20 = hexDecode hh := by
      rw [← h20, List.take_left]
    have hhex : hexEncode (hexDecode hh) = hh :=
      hexEncode_hexDecode hh hlower (by rw [hlen])
    have hdrop21 : ((utf8Str m ++ 32 :: utf8Str nm)
        ++ 0 :: (hexDecode hh ++ es.flatMap encodeEntry)).drop
          ((utf8Str m ++ 32 :: utf8Str nm).length + 21)
        = es.flatMap encodeEntry := by
      have hshape : (utf8Str m ++ 32 :: utf8Str nm)
          ++ 0 :: (hexDecode hh ++ es.flatMap encodeEntry)
          = (((utf8Str m ++ 32 :: utf8Str nm) ++ [0]) ++ hexDecode hh)
            ++ es.flatMap encodeEntry := by
        simp
      have hlen21 : (utf8Str m ++ 32 :: utf8Str nm).length + 21
          = (((utf8Str m ++ 32 :: utf8Str nm) ++ [0]) ++ hexDecode hh).length := by
        simp only [List.length_append, List.length_cons, List.length_nil, h20]
      rw [hshape, hlen21, List.drop_left]
    rw [htake, hdecode, hsplit, hdrop1, htake20, hhex, hdrop21]
    simp only [List.take, List.getD, List.getElem?_cons_zero, Option.getD_some]
    have hrest : (es.flatMap encodeEntry).length ≤ g := by
      rw [hflat, henc] at hf
      simp only [List.length_append, List.length_cons, h20] at hf ⊢
      omega
    rw [ih g (fun x hx => hwf x (List.mem_cons_of_mem _ hx)) hrest]
    simp

/-- C5 (amended): for every list of entries with valid modes, names
    containing no `\0`, no `/` and — as forced by the counterexample — no
    space, and lowercase 40-hex child ids, parsing the serialized payload
    yields exactly the entry sequence the serialization emitted (the
    entries in sorted order, a permutation of the input). -/
theorem c5_tree_roundtrip (entries : List TreeEntry)
    (hwf : ∀ e ∈ entries, wfEntry e) :
    parseTreeEntries (serializeEntries entries) = sortEntries entries
    ∧ (sortEntries entries).Perm entries := by
  have hwfs : ∀ e ∈ sortEntries entries, wfEntry e := by
    intro e he
    exact hwf e ((List.perm_insertionSort entryLe entries).mem_iff.mp he)
  refine ⟨?_, List.perm_insertionSort entryLe entries⟩
  exact parseF_flatMap (sortEntries entries)
    ((sortEntries entries).flatMap encodeEntry).length hwfs (Nat.le_refl _)

instance (e : TreeEntry) : Decidable (wfEntry e) := by
  unfold wfEntry
  infer_instance

def badEntry : TreeEntry :=
  TreeEntry.mk ("100644".data) ("a b".data) (List.replicate 40 'A')

/-- C5 counterexample: an entry whose name contains a space (allowed by
    the claim) and whose id is uppercase hex does not survive the
    round-trip: `split(' ', 2)` truncates the name to `a` and the 20 raw
    bytes re-encode as lowercase hex. -/
theorem c5_counterexample :
    parseTreeEntries (serializeEntries [badEntry]) ≠ sortEntries [badEntry]
    ∧ parseTreeEntries (serializeEntries [badEntry])
        = [TreeEntry.mk ("100644".data) ("a".data) (List.replicate 40 'a')] := by
  decide

/-- C5 witness: a concrete two-entry round-trip. -/
theorem c5_witness :
    parseTreeEntries (serializeEntries [entB, entA]) = sortEntries [entB, entA]
    ∧ (sortEntries [entB, entA]).Perm [entB, entA] :=
  c5_tree_roundtrip [entB, entA] (by decide)

/-! ## Claim C6 -/

theorem isPrefixOf_append_self (l r : Str) : l.isPrefixOf (l ++ r) = true := by
  induction l with
  | nil => simp [List.isPrefixOf]
  | cons a as ih => simp [List.isPrefixOf, ih]

theorem scan_tree (t : Str) (more : List Str) (acc : CommitScan) :
    scanCommitLines ((("tree ".data) ++ t) :: more) acc
      = scanCommitLines more { acc with tree := some t } := by
  simp only [scanCommitLines]
  rw [if_pos (isPrefixOf_append_self ("tree ".data) t)]
  rfl

theorem scan_parent (p : Str) (more : List Str) (acc : CommitScan) :
    scanCommitLines ((("parent ".data) ++ p) :: more) acc
      = scanCommitLines more { acc with parents := acc.parents ++ [p] } := by
  simp only [scanCommitLines]
  rw [if_neg (by simp [List.isPrefixOf]),
    if_pos (isPrefixOf_append_self ("parent ".data) p)]
  rfl

theorem scan_author_general (x : Str) (more : List Str) (acc : CommitScan) :
    scanCommitLines ((("author ".data) ++ x) :: more) acc
      = scanCommitLines more { acc with
          author := some (joinCh ' '
            ((splitCh ' ' x).take ((splitCh ' ' x).length - 2)))
          ts := if 2 ≤ (splitCh ' ' x).length
            then parseDec ((splitCh ' ' x).getD ((splitCh ' ' x).length - 2) [])
            else none } := by
  simp only [scanCommitLines]
  rw [if_neg (by simp [List.isPrefixOf]),
    if_neg (by simp [List.isPrefixOf]),
    if_pos (isPrefixOf_append_self ("author ".data) x)]
  rfl

theorem scan_committer_general (x : Str) (more : List Str) (acc : CommitScan) :
    scanCommitLines ((("committer ".data) ++ x) :: more) acc
      = scanCommitLines more { acc with
          committer := some (joinCh ' '
            ((splitCh ' ' x).take ((splitCh ' ' x).length - 2))) } := by
  simp only [scanCommitLines]
  rw [if_neg (by simp [List.isPrefixOf]),
    if_neg (by simp [List.isPrefixOf]),
    if_neg (by simp [List.isPrefixOf]),
    if_pos (isPrefixOf_append_self ("committer ".data) x)]
  rfl

theorem scan_blank (more : List Str) (acc : CommitScan) :
    scanCommitLines ([] :: more) acc = { acc with rest := some more } := rfl

theorem joinCh_cons (d : Char) (s : Str) (r : List Str) (hr : r ≠ []) :
    joinCh d (s :: r) = s ++ d :: joinCh d r := by
  cases r with
  | nil => exact absurd rfl hr
  | cons a as => rfl

theorem splitCh_joinCh_parts (d : Char) (H : List Str) (m : Str)
    (hH : ∀ h ∈ H, d ∉ h) :
    splitCh d (joinCh d (H ++ [m])) = H ++ splitCh d m := by
  induction H with
  | nil => simp [joinCh]
  | cons h H ih =>
    rw [List.cons_append, joinCh_cons d h (H ++ [m]) (by simp),
      splitCh_append, splitCh_of_not_mem d h (hH h (by simp)),
      ih (fun g hg => hH g (by simp [hg]))]
    simp

theorem scan_parents (ps : List Str) (more : List Str) (acc : CommitScan) :
    scanCommitLines (ps.map (fun p => ("parent ".data) ++ p) ++ more) acc
      = scanCommitLines more { acc with parents := acc.parents ++ ps } := by
  induction ps generalizing acc with
  | nil => simp
  | cons p ps ih =>
    have h1 : List.map (fun q => ("parent ".data) ++ q) (p :: ps) ++ more
        = (("parent ".data) ++ p)
          :: (List.map (fun q => ("parent ".data) ++ q) ps ++ more) := by
      simp
    rw [h1, scan_parent, ih]
    simp

theorem toDec_not_mem (n : Nat) (c : Char) (hc : isDigitCh c = false) :
    c ∉ toDec n := by
  intro h
  simp [toDec_all_digits n c h] at hc

theorem splitCh_tail_tokens (u : Str) (n : Nat) :
    splitCh ' ' (u ++ ([' '] ++ (toDec n ++ (" +0000".data))))
      = splitCh ' ' u ++ [toDec n, ("+0000".data)] := by
  have h1 : u ++ ([' '] ++ (toDec n ++ (" +0000".data)))
      = u ++ ' ' :: (toDec n ++ (" +0000".data)) := by
    simp
  rw [h1, splitCh_append]
  have h2 : splitCh ' ' (toDec n ++ (" +0000".data))
      = splitCh ' ' (toDec n ++ ' ' :: ("+0000".data)) := rfl
  rw [h2, splitCh_append,
    splitCh_of_not_mem ' ' (toDec n) (toDec_not_mem n ' ' (by decide)),
    splitCh_of_not_mem ' ' ("+0000".data) (by decide)]
  simp

theorem author_field_eq (u : Str) (n : Nat) :
    joinCh ' ' ((splitCh ' ' (u ++ ([' '] ++ (toDec n ++ (" +0000".data))))).take
      ((splitCh ' ' (u ++ ([' '] ++ (toDec n ++ (" +0000".data))))).length - 2)) = u := by
  rw [splitCh_tail_tokens]
  have h : (splitCh ' ' u ++ [toDec n, ("+0000".data)]).length - 2
      = (splitCh ' ' u).length := by simp
  rw [h, List.take_left, joinCh_splitCh]

theorem ts_field_eq (u : Str) (n : Nat) :
    (if 2 ≤ (splitCh ' ' (u ++ ([' '] ++ (toDec n ++ (" +0000".data))))).length
      then parseDec ((splitCh ' ' (u ++ ([' '] ++ (toDec n ++ (" +0000".data))))).getD
        ((splitCh ' ' (u ++ ([' '] ++ (toDec n ++ (" +0000".data))))).length - 2) [])
      else none) = some n := by
  rw [splitCh_tail_tokens]
  have hlen : (splitCh ' ' u ++ [toDec n, ("+0000".data)]).length
      = (splitCh ' ' u).length + 2 := by simp
  rw [hlen, if_pos (Nat.le_add_left 2 _)]
  have h2 : (splitCh ' ' u).length + 2 - 2 = (splitCh ' ' u).length := by omega
  rw [h2, List.getD_eq_getElem?_getD, List.getElem?_append_right (le_refl _)]
  simp [parseDec_toDec]

theorem commitRoundtripAux (th : Str) (parents : List Str)
    (author committer message : Str) (ts now2 : Nat)
    (hth : '\n' ∉ th) (hps : ∀ p ∈ parents, '\n' ∉ p)
    (ha : '\n' ∉ author) (hcm : '\n' ∉ committer) (hts : ts ≠ 0) :
    commitFromContent
        (utf8Str (joinCh '\n'
          ((("tree ".data ++ th) :: parents.map (fun p => ("parent ".data) ++ p))
            ++ [("author ".data) ++ author ++ [' '] ++ toDec ts ++ (" +0000".data)]
            ++ [("committer ".data) ++ committer ++ [' '] ++ toDec ts ++ (" +0000".data)]
            ++ [[], message]))) now2
      = mkCommit (some th) parents author committer message ts now2 := by
  have l6 : '\n' ∉ toDec ts := toDec_not_mem ts '\n' (by decide)
  have hTree : '\n' ∉ ("tree ".data ++ th) := by
    simp only [List.mem_append]
    rintro (h | h)
    · exact (by decide : '\n' ∉ ("tree ".data)) h
    · exact hth h
  have hPar : ∀ x ∈ parents.map (fun p => ("parent ".data) ++ p), '\n' ∉ x := by
    intro x hx
    rcases List.mem_map.mp hx with ⟨p, hp, rfl⟩
    simp only [List.mem_append]
    rintro (h | h)
    · exact (by decide : '\n' ∉ ("parent ".data)) h
    · exact hps p hp h
  have hAuth : '\n' ∉ (("author ".data) ++ author ++ [' '] ++ toDec ts
      ++ (" +0000".data)) := by
    simp only [List.mem_append]
    rintro ((((h | h) | h) | h) | h)
    · exact (by decide : '\n' ∉ ("author ".data)) h
    · exact ha h
    · exact (by decide : '\n' ∉ ([' '] : Str)) h
    · exact l6 h
    · exact (by decide : '\n' ∉ (" +0000".data)) h
  have hComm : '\n' ∉ (("committer ".data) ++ committer ++ [' '] ++ toDec ts
      ++ (" +0000".data)) := by
    simp only [List.mem_append]
    rintro ((((h | h) | h) | h) | h)
    · exact (by decide : '\n' ∉ ("committer ".data)) h
    · exact hcm h
    · exact (by decide : '\n' ∉ ([' '] : Str)) h
    · exact l6 h
    · exact (by decide : '\n' ∉ (" +0000".data)) h
  have hH : ∀ x ∈ ((("tree ".data ++ th) :: parents.map (fun p => ("parent ".data) ++ p))
      ++ [("author ".data) ++ author ++ [' '] ++ toDec ts ++ (" +0000".data)]
      ++ [("committer ".data) ++ committer ++ [' '] ++ toDec ts ++ (" +0000".data)]
      ++ [([] : Str)]), '\n' ∉ x := by
    simp only [List.forall_mem_append, List.forall_mem_cons, List.forall_mem_singleton]
    exact ⟨⟨⟨⟨hTree, hPar⟩, hAuth, by simp⟩, hComm, by simp⟩, by simp⟩
  simp only [commitFromContent]
  rw [utf8Decode_utf8Str]
  have e0 : ((("tree ".data ++ th) :: parents.map (fun p => ("parent ".data) ++ p))
        ++ [("author ".data) ++ author ++ [' '] ++ toDec ts ++ (" +0000".data)]
        ++ [("committer ".data) ++ committer ++ [' '] ++ toDec ts ++ (" +0000".data)]
        ++ [[], message])
      = (((("tree ".data ++ th) :: parents.map (fun p => ("parent ".data) ++ p))
          ++ [("author ".data) ++ author ++ [' '] ++ toDec ts ++ (" +0000".data)]
          ++ [("committer ".data) ++ committer ++ [' '] ++ toDec ts ++ (" +0000".data)]
          ++ [([] : Str)]) ++ [message]) := by simp
  rw [e0, splitCh_joinCh_parts '\n' _ message hH]
  have e1 : (((("tree ".data ++ th) :: parents.map (fun p => ("parent ".data) ++ p))
        ++ [("author ".data) ++ author ++ [' '] ++ toDec ts ++ (" +0000".data)]
        ++ [("committer ".data) ++ committer ++ [' '] ++ toDec ts ++ (" +0000".data)]
        ++ [([] : Str)]) ++ splitCh '\n' message)
      = (("tree ".data) ++ th) :: (parents.map (fun p => ("parent ".data) ++ p)
          ++ (((("author ".data)
              ++ (author ++ ([' '] ++ (toDec ts ++ (" +0000".data))))))
            :: (((("committer ".data)
                ++ (committer ++ ([' '] ++ (toDec ts ++ (" +0000".data))))))
              :: ([] :: splitCh '\n' message)))) := by simp
  rw [e1, scan_tree, scan_parents, scan_author_general, scan_committer_general,
    scan_blank]
  rw [author_field_eq author ts, ts_field_eq author ts, author_field_eq committer ts]
  simp [mkCommit, jsShow, joinCh_splitCh, hts]

/-- **C6**: the commit roundtrip (constructor → payload → `Commit.fromContent`)
    restores the tree id, the parent list in order, the author, the committer,
    the timestamp and the message exactly — in fact the whole `CommitData`
    record — provided the tree id, the parent ids, the author and the
    committer contain no newline (and the clock is positive, as `Date.now`
    always is).  Messages may contain embedded newlines and blank lines. -/
theorem c6_commit_roundtrip (th : Str) (parents : List Str)
    (author committer message : Str) (timestamp now now2 : Nat)
    (hth : '\n' ∉ th) (hps : ∀ p ∈ parents, '\n' ∉ p)
    (ha : '\n' ∉ author) (hcm : '\n' ∉ committer) (hnow : 0 < now) :
    commitFromContent
        (mkCommit (some th) parents author committer message timestamp now).content
        now2
      = mkCommit (some th) parents author committer message timestamp now := by
  have hts0 : (if timestamp ≠ 0 then timestamp else now) ≠ 0 := by
    by_cases h : timestamp = 0 <;> simp [h] <;> omega
  have hcont : (mkCommit (some th) parents author committer message timestamp now).content
      = utf8Str (joinCh '\n'
        ((("tree ".data ++ th) :: parents.map (fun p => ("parent ".data) ++ p))
          ++ [("author ".data) ++ author ++ [' ']
              ++ toDec (if timestamp ≠ 0 then timestamp else now) ++ (" +0000".data)]
          ++ [("committer ".data) ++ committer ++ [' ']
              ++ toDec (if timestamp ≠ 0 then timestamp else now) ++ (" +0000".data)]
          ++ [[], message])) := rfl
  rw [hcont,
    commitRoundtripAux th parents author committer message _ now2 hth hps ha hcm hts0]
  simp only [mkCommit]
  rw [if_pos hts0]

/-- Counterexample for the unrestricted reading of **C6**: an author string
    containing a newline does not survive the roundtrip — the line split cuts
    it, and the scan of `Commit.fromContent` recovers an empty author. -/
theorem c6_counterexample :
    (commitFromContent
        (mkCommit (some ("ffffffffffffffffffffffffffffffffffffffff".data)) []
          ("a\nb".data) ("c".data) ("m".data) 5 9).content 9).author
      ≠ ("a\nb".data) := by decide

/-- Witness instantiating `c6_commit_roundtrip` on a concrete commit with a
    parent and a message containing an embedded blank line. -/
theorem c6_witness :
    ('\n' ∉ ("1111111111222222222233333333334444444444".data))
    ∧ (∀ p ∈ [("aaaaaaaaaabbbbbbbbbbccccccccccdddddddddd".data)], '\n' ∉ p)
    ∧ ('\n' ∉ ("A U <a@u>".data)) ∧ ('\n' ∉ ("C U <c@u>".data)) ∧ 0 < 1700000000
    ∧ commitFromContent
        (mkCommit (some ("1111111111222222222233333333334444444444".data))
          [("aaaaaaaaaabbbbbbbbbbccccccccccdddddddddd".data)]
          ("A U <a@u>".data) ("C U <c@u>".data) ("first\n\nbody".data)
          1700000000 1).content 7
      = mkCommit (some ("1111111111222222222233333333334444444444".data))
          [("aaaaaaaaaabbbbbbbbbbccccccccccdddddddddd".data)]
          ("A U <a@u>".data) ("C U <c@u>".data) ("first\n\nbody".data)
          1700000000 1 :=
  ⟨by decide, by decide, by decide, by decide, by decide,
    c6_commit_roundtrip _ _ _ _ _ _ _ _ (by decide) (by decide) (by decide)
      (by decide) (by decide)⟩
